import Mathlib

/-!
Verification of the conciliation pipeline in
`src/backend-python/scripts/process_conciliation.py`.

Modelling conventions (shallow embedding):
* A pandas cell value (dtype=object) is a `PyValue`: Python `None`,
  `str`, `float` (modelled as an exact rational), `int`, or the
  non-finite floats `nan`, `inf`, `-inf`.
* A dataframe row / Python dict is a `Row`, an association list with the
  keys unique and kept in insertion order, like a Python dict.
* `json.dumps(..., sort_keys=True)` is embedded as sorting the entries
  by key and rendering with `", "` / `": "` separators, as the library
  does.
* The external digests `uuid.uuid5` and `hashlib.md5` are deterministic
  functions of their input string; they are modelled as the tagged
  input string itself (a deterministic, collision-free stand-in, which
  is exactly the property the pipeline relies on).
* The Supabase store is external; the operations issued to it are
  modelled as explicit `StoreOp` values, with injected success/failure.
-/

/-- A Python value held in a pandas object cell. `num` models a finite
Python float (exact rational arithmetic stands in for IEEE doubles);
`int` models a Python int; `nan`, `inf`, `ninf` are the non-finite
floats. -/
inductive PyValue where
  | null
  | str (s : String)
  | num (q : ℚ)
  | int (n : Nat)
  | nan
  | inf
  | ninf
deriving DecidableEq, Repr

/-- Python truthiness (`if v:`): `None`, `""`, `0` are falsy; note that
`float('nan')` is truthy in Python. -/
def PyValue.truthy : PyValue → Bool
  | .null => false
  | .str s => s ≠ ""
  | .num q => q ≠ 0
  | .int n => n ≠ 0
  | .nan => true
  | .inf => true
  | .ninf => true

/-- A value is finite when it is not `NaN`, `+Inf` or `-Inf`. -/
def PyValue.isFinite : PyValue → Bool
  | .nan => false
  | .inf => false
  | .ninf => false
  | _ => true

/-- `_sanitize_value` (lines 309-318): pandas `isna` (None/NaN) becomes
`None`, and so do the two infinities; everything else is unchanged. -/
def sanitizeValue : PyValue → PyValue
  | .null => .null
  | .nan => .null
  | .inf => .null
  | .ninf => .null
  | v => v

/-- A dataframe record / Python dict: association list in insertion
order with unique keys. -/
abbrev Row := List (String × PyValue)

/-- `d.get(k)` on a dict: the value stored under `k`, if any. -/
def rowGet? (r : Row) (k : String) : Option PyValue :=
  (r.find? (fun kv => kv.1 == k)).map Prod.snd

/-- `d[k] = v` on a dict: replace the entry for `k` in place, or append
a new entry at the end. -/
def rowSet : Row → String → PyValue → Row
  | [], k, v => [(k, v)]
  | kv :: r, k, v => if kv.1 = k then (k, v) :: r else kv :: rowSet r k v

/-- `_sanitize_record` (lines 320-321): sanitize every value of the
dict. -/
def sanitizeRecord (r : Row) : Row :=
  r.map (fun kv => (kv.1, sanitizeValue kv.2))

/-- The value stored under `'id'`, as read by the in-file dedup loop
(line 379); a missing key reads as Python `None`. -/
def rowId (r : Row) : PyValue :=
  (rowGet? r "id").getD PyValue.null

/-! ### Decimal rendering of naturals (used by the JSON embedding) -/

/-- One decimal digit as a character. -/
def digitChar : Nat → Char
  | 0 => '0' | 1 => '1' | 2 => '2' | 3 => '3' | 4 => '4'
  | 5 => '5' | 6 => '6' | 7 => '7' | 8 => '8' | _ => '9'

/-- The decimal digits of `n`, most significant first (empty for 0),
with explicit recursion fuel so that the kernel can evaluate it. -/
def decDigitsF (fuel n : Nat) : List Nat :=
  match fuel with
  | 0 => []
  | fuel + 1 => if n = 0 then [] else decDigitsF fuel (n / 10) ++ [n % 10]

/-- The decimal digits of `n`, most significant first (empty for 0). -/
def decDigits (n : Nat) : List Nat := decDigitsF n n

/-- Decimal rendering of a natural number. -/
def decRepr (n : Nat) : String :=
  if n = 0 then "0" else String.mk ((decDigits n).map digitChar)

/-- Reassemble a natural from its decimal digit list. -/
def decVal (l : List Nat) : Nat :=
  l.foldl (fun a d => 10 * a + d) 0

theorem decVal_append_single (l : List Nat) (d : Nat) :
    decVal (l ++ [d]) = 10 * decVal l + d := by
  simp [decVal, List.foldl_append]

theorem decDigitsF_irrel (fuel1 : Nat) : ∀ fuel2 n, n ≤ fuel1 → n ≤ fuel2 →
    decDigitsF fuel1 n = decDigitsF fuel2 n := by
  induction fuel1 with
  | zero =>
    intro fuel2 n h1 _
    interval_cases n
    cases fuel2 <;> rfl
  | succ f1 ih =>
    intro fuel2 n h1 h2
    cases fuel2 with
    | zero =>
      interval_cases n
      rfl
    | succ f2 =>
      by_cases hn : n = 0
      · simp [decDigitsF, hn]
      · simp only [decDigitsF, hn, if_false]
        have hdiv : n / 10 < n := Nat.div_lt_self (Nat.pos_of_ne_zero hn) (by omega)
        rw [ih f2 (n / 10) (by omega) (by omega)]

theorem decDigits_unfold (n : Nat) :
    decDigits n = if n = 0 then [] else decDigits (n / 10) ++ [n % 10] := by
  by_cases hn : n = 0
  · simp [decDigits, decDigitsF, hn]
  · rw [if_neg hn]
    obtain ⟨m, rfl⟩ : ∃ m, n = m + 1 := ⟨n - 1, by omega⟩
    have h2 : decDigits (m + 1) = decDigitsF m ((m + 1) / 10) ++ [(m + 1) % 10] := by
      show decDigitsF (m + 1) (m + 1) = _
      simp [decDigitsF]
    rw [h2]
    congr 1
    exact decDigitsF_irrel m ((m + 1) / 10) ((m + 1) / 10) (by omega) (le_refl _)

theorem decVal_decDigits (n : Nat) : decVal (decDigits n) = n := by
  induction n using Nat.strong_induction_on with
  | _ n ih =>
    by_cases h : n = 0
    · subst h; simp [decDigits, decDigitsF, decVal]
    · rw [decDigits_unfold]
      simp only [h, if_false]
      rw [decVal_append_single,
        ih (n / 10) (Nat.div_lt_self (Nat.pos_of_ne_zero h) (by omega))]
      omega

theorem decDigits_lt_ten (n : Nat) : ∀ d ∈ decDigits n, d < 10 := by
  induction n using Nat.strong_induction_on with
  | _ n ih =>
    intro d hd
    by_cases h : n = 0
    · subst h; simp [decDigits, decDigitsF] at hd
    · rw [decDigits_unfold] at hd
      simp only [h, if_false, List.mem_append, List.mem_singleton] at hd
      rcases hd with hd | hd
      · exact ih (n / 10) (Nat.div_lt_self (Nat.pos_of_ne_zero h) (by omega)) d hd
      · subst hd; exact Nat.mod_lt _ (by omega)

theorem digitChar_inj : ∀ d1 < 10, ∀ d2 < 10, digitChar d1 = digitChar d2 → d1 = d2 := by
  decide

theorem digitChar_isDigit : ∀ d < 10, (digitChar d).isDigit = true := by
  decide

theorem map_digitChar_inj (l1 l2 : List Nat)
    (h1 : ∀ d ∈ l1, d < 10) (h2 : ∀ d ∈ l2, d < 10)
    (h : l1.map digitChar = l2.map digitChar) : l1 = l2 := by
  induction l1 generalizing l2 with
  | nil => cases l2 with
    | nil => rfl
    | cons b t => simp at h
  | cons a t ih =>
    cases l2 with
    | nil => simp at h
    | cons b t2 =>
      simp only [List.map_cons, List.cons.injEq] at h
      have hab : a = b :=
        digitChar_inj a (h1 a (by simp)) b (h2 b (by simp)) h.1
      have ht : t = t2 :=
        ih t2 (fun d hd => h1 d (by simp [hd])) (fun d hd => h2 d (by simp [hd])) h.2
      rw [hab, ht]

theorem decDigits_inj (n m : Nat) (h : decDigits n = decDigits m) : n = m := by
  have := decVal_decDigits n
  rw [h, decVal_decDigits] at this
  omega

theorem decRepr_inj (n m : Nat) (h : decRepr n = decRepr m) : n = m := by
  unfold decRepr at h
  by_cases hn : n = 0 <;> by_cases hm : m = 0
  · omega
  · exfalso
    simp only [hn, if_true, hm, if_false] at h
    have hd : ['0'] = (decDigits m).map digitChar := congrArg String.data h
    have h0 : decDigits m = [0] := by
      have := map_digitChar_inj [0] (decDigits m) (by decide) (decDigits_lt_ten m)
        (by simpa [digitChar] using hd)
      exact this.symm
    have := decVal_decDigits m
    rw [h0, show decVal [0] = 0 from rfl] at this
    omega
  · exfalso
    simp only [hn, if_false, hm, if_true] at h
    have hd : (decDigits n).map digitChar = ['0'] := congrArg String.data h
    have h0 : decDigits n = [0] :=
      map_digitChar_inj (decDigits n) [0] (decDigits_lt_ten n) (by decide) (by exact hd)
    have := decVal_decDigits n
    rw [h0, show decVal [0] = 0 from rfl] at this
    omega
  · simp only [hn, hm, if_false] at h
    have hd := congrArg String.data h
    simp only [String.data] at hd
    exact decDigits_inj n m
      (map_digitChar_inj _ _ (decDigits_lt_ten n) (decDigits_lt_ten m) hd)

theorem decRepr_all_digits (n : Nat) : ∀ c ∈ (decRepr n).data, c.isDigit = true := by
  intro c hc
  unfold decRepr at hc
  by_cases hn : n = 0
  · simp only [hn, if_true] at hc
    have : c = '0' := by simpa using hc
    subst this; decide
  · simp only [hn, if_false] at hc
    obtain ⟨d, hd, hdc⟩ := List.mem_map.mp hc
    subst hdc
    exact digitChar_isDigit d (decDigits_lt_ten n d hd)

/-! ### JSON serialization (`json.dumps`) -/

/-- JSON string escaping (backslash and double quote; control characters
do not occur in the cleaned data). -/
def jsonEscape (s : String) : String :=
  String.mk (s.data.foldr
    (fun c acc =>
      if c = '\\' then '\\' :: '\\' :: acc
      else if c = '"' then '\\' :: '"' :: acc
      else c :: acc) [])

/-- Decimal digits of the fractional part of `num/den`, by long
division (at most `fuel` digits; the rationals produced by the value
cleaner terminate well within it). -/
def fracDigits : Nat → Nat → Nat → List Char
  | _, _, 0 => []
  | 0, _, _ + 1 => []
  | n, d, fuel + 1 =>
    if d = 0 then []
    else digitChar ((n * 10) / d % 10) :: fracDigits ((n * 10) % d) d fuel

/-- Python `repr` of a finite float, as `json.dumps` renders it:
integral values as `x.0`, others in plain decimal. -/
def renderFloat (q : ℚ) : String :=
  let sign := if q.num < 0 then "-" else ""
  let a := q.num.natAbs
  if q.den = 1 then sign ++ decRepr a ++ ".0"
  else sign ++ decRepr (a / q.den) ++ "." ++ String.mk (fracDigits (a % q.den) q.den 64)

/-- `json.dumps` rendering of one value. -/
def renderJsonValue : PyValue → String
  | .null => "null"
  | .str s => "\"" ++ jsonEscape s ++ "\""
  | .num q => renderFloat q
  | .int n => decRepr n
  | .nan => "NaN"
  | .inf => "Infinity"
  | .ninf => "-Infinity"

/-- One `"key": value` item of a JSON object. -/
def renderEntry (kv : String × PyValue) : String :=
  "\"" ++ jsonEscape kv.1 ++ "\": " ++ renderJsonValue kv.2

/-- Join with the default `json.dumps` item separator. -/
def joinComma : List String → String
  | [] => ""
  | [x] => x
  | x :: xs => x ++ ", " ++ joinComma xs

/-- `json.dumps` of a dict (entries already in the intended order). -/
def renderJsonObj (l : List (String × PyValue)) : String :=
  "\x7b" ++ joinComma (l.map renderEntry) ++ "\x7d"

/-- Lexicographic (code-point) strict comparison of character lists,
as Python compares strings. -/
def charListLtB : List Char → List Char → Bool
  | [], [] => false
  | [], _ :: _ => true
  | _ :: _, [] => false
  | a :: as, b :: bs => if a < b then true else if b < a then false else charListLtB as bs

/-- Python `<` on strings. -/
def strLtB (a b : String) : Bool := charListLtB a.data b.data

/-- Python `<=` on strings. -/
def strLeB (a b : String) : Bool := strLtB a b || a == b

/-- Insert one entry into a key-sorted entry list. -/
def insertByKey (x : String × PyValue) : List (String × PyValue) → List (String × PyValue)
  | [] => [x]
  | y :: l => if strLeB x.1 y.1 then x :: y :: l else y :: insertByKey x l

/-- `sort_keys=True`: sort the entries of a dict by key (keys are
unique, so stability is irrelevant). -/
def sortByKey : List (String × PyValue) → List (String × PyValue)
  | [] => []
  | x :: l => insertByKey x (sortByKey l)

/-! ### Configuration constants (lines 14-95 of the source) -/

/-- `COLUMNS_MAPPING_LEGACY` (lines 18-52), in insertion order. -/
def COLUMNS_MAPPING_LEGACY : List (String × String) := [
  ("competencia", "competence_date"),
  ("data_fato_gerador", "event_date"),
  ("fato_gerador", "event_trigger"),
  ("tipo_lancamento", "transaction_type"),
  ("descricao_lancamento", "transaction_description"),
  ("valor", "gross_value"),
  ("base_calculo", "calculation_base_value"),
  ("percentual_taxa", "tax_percentage"),
  ("pedido_associado_ifood", "ifood_order_id"),
  ("pedido_associado_ifood_curto", "ifood_order_id_short"),
  ("pedido_associado_externo", "external_order_id"),
  ("motivo_cancelamento", "cancellation_reason"),
  ("descricao_ocorrencia", "occurrence_description"),
  ("data_criacao_pedido_associado", "order_creation_date"),
  ("data_repasse_esperada", "expected_payment_date"),
  ("valor_transacao", "transaction_value"),
  ("loja_id", "store_id"),
  ("loja_id_curto", "store_id_short"),
  ("loja_id_externo", "store_id_external"),
  ("cnpj", "cnpj"),
  ("titulo", "title"),
  ("data_faturamento", "billing_date"),
  ("data_apuracao_inicio", "settlement_start_date"),
  ("data_apuracao_fim", "settlement_end_date"),
  ("valor_cesta_inicial", "initial_basket_value"),
  ("valor_cesta_final", "final_basket_value"),
  ("responsavel_transacao", "transaction_responsible"),
  ("canal_vendas", "sales_channel"),
  ("impacto_no_repasse", "payment_impact"),
  ("parcela_pagamento", "payment_installment"),
  ("pedido_detalhes", "order_details"),
  ("metodo_pagamento", "payment_method"),
  ("bandeira_pagamento", "payment_brand")]

/-- `COLUMNS_MAPPING_V3` (lines 54-60): the legacy dict re-assigned the
four v3 keys (same positions, same values) plus the new `id_saldo`
appended, exactly as `{**legacy, ...}` builds it. -/
def COLUMNS_MAPPING_V3 : List (String × String) :=
  COLUMNS_MAPPING_LEGACY ++ [("id_saldo", "balance_id")]

/-- `V3_MARKERS` (line 62). -/
def V3_MARKERS : List String :=
  ["pedido_detalhes", "id_saldo", "metodo_pagamento", "bandeira_pagamento"]

/-- `NATURAL_KEY_COLUMNS` (lines 67-86), with `balance_id` appended by
the module-level `if` (lines 85-86). -/
def NATURAL_KEY_COLUMNS : List String := [
  "competence_date",
  "event_date",
  "transaction_type",
  "transaction_description",
  "gross_value",
  "transaction_value",
  "ifood_order_id",
  "external_order_id",
  "store_id",
  "title",
  "billing_date",
  "settlement_start_date",
  "settlement_end_date",
  "payment_installment",
  "balance_id"]

/-- `EXTRA_COLUMNS` (lines 89-95). -/
def EXTRA_COLUMNS : List String :=
  ["order_details", "payment_method", "payment_brand", "balance_id", "layout_version"]

/-! ### Layout detection and worksheet selection -/

/-- Python `str.lower()` (ASCII range suffices for the header names). -/
def pyLower (s : String) : String := String.mk (s.data.map Char.toLower)

/-- Python `str.strip()`: drop leading and trailing whitespace. -/
def pyStrip (s : String) : String :=
  String.mk (((s.data.dropWhile Char.isWhitespace).reverse.dropWhile Char.isWhitespace).reverse)

/-- `normalize_layout_hint` (lines 103-109): falsy hints become `None`;
otherwise strip and lower-case, and keep only the recognized literals. -/
def normalizeLayoutHint : Option String → Option String
  | Option.none => Option.none
  | some h =>
    if h = "" then Option.none
    else
      let h2 := pyLower (pyStrip h)
      if h2 = "legacy" ∨ h2 = "v3" then some h2 else Option.none

/-- `detect_layout` (lines 112-120): a recognized hint wins; otherwise
`v3` exactly when all four markers are among the (already normalized)
column names; otherwise `legacy`. -/
def detectLayout (columns : List String) (layoutHint : Option String) : String :=
  match normalizeLayoutHint layoutHint with
  | some h => h
  | Option.none => if V3_MARKERS.all (fun m => m ∈ columns) then "v3" else "legacy"

/-- `get_mapping_for_layout` (lines 123-126). -/
def mappingForLayout (layoutVersion : String) : List (String × String) :=
  if layoutVersion = "v3" then COLUMNS_MAPPING_V3 else COLUMNS_MAPPING_LEGACY

/-- `_select_sheet_name` (lines 168-185): an empty workbook is a fatal
`ValueError`; a `legacy` hint picks sheet 1 when it exists, a `v3` hint
picks sheet 0, no recognized hint picks sheet 1 when there is more than
one sheet and sheet 0 otherwise. -/
def selectSheetName (sheetNames : List String) (layoutHint : Option String) :
    Except String String :=
  if sheetNames = [] then Except.error "Arquivo Excel sem abas disponíveis."
  else
    let nh := normalizeLayoutHint layoutHint
    if nh = some "legacy" ∧ 1 < sheetNames.length then Except.ok (sheetNames.getD 1 "")
    else if nh = some "v3" then Except.ok (sheetNames.getD 0 "")
    else if 1 < sheetNames.length then Except.ok (sheetNames.getD 1 "")
    else Except.ok (sheetNames.getD 0 "")

/-! ### Field cleaning (`read_and_clean_data`, lines 226-287) -/

/-- The date columns of line 239-242. -/
def DATE_COLUMNS : List String :=
  ["competence_date", "event_date", "order_creation_date", "expected_payment_date",
   "billing_date", "settlement_start_date", "settlement_end_date"]

/-- The identifier columns of lines 248-252. -/
def ID_COLUMNS : List String :=
  ["ifood_order_id", "ifood_order_id_short", "external_order_id",
   "store_id", "store_id_short", "store_id_external", "cnpj", "balance_id"]

/-- The monetary/numeric columns of lines 257-260. -/
def VALUE_COLUMNS : List String :=
  ["gross_value", "calculation_base_value", "tax_percentage", "transaction_value",
   "initial_basket_value", "final_basket_value"]

/-- Python `str(v)` on a cell, as `.astype(str)` applies it. -/
def pyStr : PyValue → String
  | .null => "None"
  | .str s => s
  | .num q => renderFloat q
  | .int n => decRepr n
  | .nan => "nan"
  | .inf => "inf"
  | .ninf => "-inf"

/-- The regex replacement `\.0$` → `` (one possible match, at the end). -/
def stripDotZero (s : String) : String :=
  if s.data.reverse.take 2 = ['0', '.'] then String.mk (s.data.take (s.data.length - 2))
  else s

/-- Identifier cleaning (line 255): `astype(str)`, strip a trailing
`.0`, then map the literal `'None'` back to `None`. -/
def cleanIdCell (v : PyValue) : PyValue :=
  let s := stripDotZero (pyStr v)
  if s = "None" then PyValue.null else PyValue.str s

/-- The regex replacement `[^0-9,\.-]` → `` (line 266): keep digits,
comma, period and minus. -/
def moneyFilter (s : String) : String :=
  String.mk (s.data.filter (fun c => c.isDigit || c = ',' || c = '.' || c = '-'))

/-- `str.replace(',', '.')` (line 267). -/
def commaToDot (s : String) : String :=
  String.mk (s.data.map (fun c => if c = ',' then '.' else c))

/-- Numeric value of a digit string. -/
def digitsToNat (s : String) : Nat :=
  s.data.foldl (fun a c => 10 * a + (c.toNat - 48)) 0

/-- Python `str.split(sep)` for a one-character separator, on the
character list. -/
def splitOnChar (c : Char) : List Char → List (List Char)
  | [] => [[]]
  | x :: xs =>
    let r := splitOnChar c xs
    if x = c then [] :: r
    else
      match r with
      | [] => [[x]]
      | y :: ys => (x :: y) :: ys

/-- `pd.to_numeric(errors='coerce')` on one already-filtered string
(alphabet `0-9.,-`): an optional leading minus, then a plain decimal
with at most one point and at least one digit; anything else coerces to
NaN. The resulting float is modelled as an exact rational. -/
def parseFloat (s : String) : Option ℚ :=
  let neg : Bool := s.data.head? = some '-'
  let t : List Char := if neg then s.data.tail else s.data
  if t.any (fun c => c = '-') then Option.none
  else
    match splitOnChar '.' t with
    | [ip] =>
      if ip ≠ [] ∧ ip.all Char.isDigit then
        some ((if neg then -1 else 1) * (digitsToNat (String.mk ip) : ℚ))
      else Option.none
    | [ip, fp] =>
      if (ip ++ fp) ≠ [] ∧ (ip ++ fp).all Char.isDigit then
        some ((if neg then -1 else 1) *
          ((digitsToNat (String.mk ip) : ℚ) +
            (digitsToNat (String.mk fp) : ℚ) / ((10 : ℚ) ^ fp.length)))
      else Option.none
    | _ => Option.none

/-- Monetary cleaning (lines 261-271): `astype(str)`, strip characters
other than digits/comma/period/minus, turn commas into periods, coerce
to a number (NaN on failure). The replacement of `±Inf` by NaN
(line 271) is the identity here because exact rational parsing never
overflows to an infinity. -/
def cleanValueCell (v : PyValue) : PyValue :=
  match parseFloat (commaToDot (moneyFilter (pyStr v))) with
  | some q => PyValue.num q
  | Option.none => PyValue.nan

/-- Per-column cleaning dispatch (lines 239-271). Date parsing
(`pd.to_datetime` + `isoformat`) is an external tolerant parser, passed
in as `dateParse`; a parsed date becomes its ISO text, an unparseable
one becomes `None` (line 246). The three column classes are disjoint,
so applying them cell-wise in sequence equals this dispatch. -/
def cleanCellForCol (dateParse : PyValue → Option String) (col : String) (v : PyValue) :
    PyValue :=
  if col ∈ DATE_COLUMNS then
    match dateParse v with
    | some s => PyValue.str s
    | Option.none => PyValue.null
  else if col ∈ ID_COLUMNS then cleanIdCell v
  else if col ∈ VALUE_COLUMNS then cleanValueCell v
  else v

/-- Auxiliary for `firstDedup` (the `dict.fromkeys` dedup of
line 273), with the seen set explicit. -/
def firstDedupAux (seen : List String) : List String → List String
  | [] => []
  | x :: xs =>
    if seen.contains x then firstDedupAux seen xs
    else x :: firstDedupAux (x :: seen) xs

/-- `dict.fromkeys` order-preserving dedup: keep the first occurrence
of each element. -/
def firstDedup (l : List String) : List String := firstDedupAux [] l

/-- `final_columns` (lines 273-276): the mapping's canonical values in
order, then the extra schema columns not already present. -/
def finalColumnsFor (mapping : List (String × String)) : List String :=
  let base := firstDedup (mapping.map Prod.snd)
  base ++ EXTRA_COLUMNS.filter (fun c => ¬ c ∈ base)

/-- Add a `None` column for every expected column the file lacks
(lines 278-282). -/
def fillMissing (r : Row) (cols : List String) : Row :=
  cols.foldl (fun acc c => if acc.any (fun kv => kv.1 == c) then acc else acc ++ [(c, PyValue.null)]) r

/-- One row through the cleaning stage of `read_and_clean_data`
(lines 232-287): NaN→None, rename to canonical names, per-class cell
cleaning, fill missing canonical columns, set `layout_version`, keep
exactly the canonical columns in order, and a final NaN→None pass. -/
def cleanRow (dateParse : PyValue → Option String) (mapping : List (String × String))
    (layout : String) (raw : Row) : Row :=
  let r0 : Row := raw.map (fun kv => (kv.1, if kv.2 = PyValue.nan then PyValue.null else kv.2))
  let r1 : Row := r0.map (fun kv => (((mapping.lookup kv.1).getD kv.1), kv.2))
  let r2 : Row := r1.map (fun kv => (kv.1, cleanCellForCol dateParse kv.1 kv.2))
  let fc := finalColumnsFor mapping
  let r3 := fillMissing r2 fc
  let r4 := rowSet r3 "layout_version" (PyValue.str layout)
  let r5 : Row := fc.map (fun c => (c, (rowGet? r4 c).getD PyValue.null))
  r5.map (fun kv => (kv.1, if kv.2 = PyValue.nan then PyValue.null else kv.2))

/-- The cleaning stage for a whole file (lines 226-287): detect the
layout from the trimmed lower-cased header names and the hint, then
clean every row; returns the cleaned rows and the layout tag. -/
def cleanRows (dateParse : PyValue → Option String) (rawCols : List String)
    (rawRows : List Row) (hint : Option String) : List Row × String :=
  let colsLower := rawCols.map (fun c => pyLower (pyStrip c))
  let layout := detectLayout colsLower hint
  let mapping := mappingForLayout layout
  (rawRows.map (cleanRow dateParse mapping layout), layout)

/-! ### Identity & hash engine (`save_data_in_batches`, lines 351-390) -/

/-- `uuid.uuid5(NAMESPACE_URL, name)`: a deterministic digest of
`name`, modelled as the tagged name itself (stand-in for a
collision-free deterministic UUID-from-name scheme). -/
def uuid5str (name : String) : String := "uuid5:" ++ name

/-- `hashlib.md5(payload).hexdigest()`: a deterministic digest of the
payload, modelled as the tagged payload itself. -/
def md5str (payload : String) : String := "md5:" ++ payload

/-- `dedupe_basis` without the ordinal (lines 363 and 370): the record
restricted to the natural-key columns that are present. -/
def dedupeBasis (r : Row) : Row :=
  NATURAL_KEY_COLUMNS.filterMap (fun k => (rowGet? r k).map (fun v => (k, v)))

/-- `base_payload` (lines 363-366): the natural-key restriction plus
`'_row_index': idx`, serialized with sorted keys. -/
def basisPayload (i : Nat) (r : Row) : String :=
  renderJsonObj (sortByKey (dedupeBasis r ++ [("_row_index", PyValue.int i)]))

/-- Lines 361-372 for the record at ordinal `i`: sanitize, derive the
deterministic id from `account_id` and the ordinal-bearing payload, and
the audit hash from the payload without the ordinal. -/
def prepareRecord (accountId : String) (i : Nat) (rec : Row) : Row :=
  let sanitized := sanitizeRecord rec
  let deterministicId := uuid5str (accountId ++ "|" ++ basisPayload i sanitized)
  let s2 := rowSet sanitized "id" (PyValue.str deterministicId)
  let naturalHash := md5str (renderJsonObj (sortByKey (dedupeBasis s2)))
  rowSet s2 "natural_hash" (PyValue.str naturalHash)

/-- `records_to_insert` (lines 351-373): attach `account_id` and
`received_file_id` to every row, then identify and hash each row at its
ordinal position. -/
def prepareRecords (accountId fileId : String) (rows : List Row) : List Row :=
  ((rows.map (fun r =>
      rowSet (rowSet r "account_id" (PyValue.str accountId))
        "received_file_id" (PyValue.str fileId))).enum).map
    (fun p => prepareRecord accountId p.1 p.2)

/-- The in-file dedup loop (lines 375-387), with the seen-id set made
explicit: falsy ids are always kept; an id already seen drops the
record. -/
def uniqueRecordsAux (seen : List PyValue) : List Row → List Row
  | [] => []
  | r :: rs =>
    let rid := rowId r
    if rid.truthy = false then r :: uniqueRecordsAux seen rs
    else if seen.contains rid then uniqueRecordsAux seen rs
    else r :: uniqueRecordsAux (rid :: seen) rs

/-- `unique_records` (lines 375-387). -/
def uniqueRecords (rs : List Row) : List Row := uniqueRecordsAux [] rs

/-! ### Period replacement (`save_data_in_batches`, lines 392-436) -/

/-- A proleptic-Gregorian day as `datetime.date` holds it. -/
structure Date where
  year : Nat
  month : Nat
  day : Nat
deriving DecidableEq, Repr

/-- Comparison of dates (the store's range filter on the ISO-ordered
`competence_date` column). -/
def dateLeB (a b : Date) : Bool :=
  decide (a.year < b.year) ||
    (a.year == b.year &&
      (decide (a.month < b.month) || (a.month == b.month && decide (a.day ≤ b.day))))

/-- Strict version of `dateLeB`. -/
def dateLtB (a b : Date) : Bool :=
  dateLeB a b && !(a == b)

/-- Python `int(s)`: an optional sign followed by digits. -/
def pyInt (s : String) : Option Int :=
  let (neg, ds) :=
    if s.data.head? = some '-' then (true, s.data.tail)
    else if s.data.head? = some '+' then (false, s.data.tail)
    else (false, s.data)
  if ds ≠ [] ∧ ds.all Char.isDigit then
    some ((if neg then -1 else 1) * (digitsToNat (String.mk ds) : Int))
  else Option.none

/-- `datetime.date(year, month, 1)`: defined only for a valid year and
month (otherwise the constructor raises and the competence is
skipped). -/
def mkDate (y m : Int) : Option Date :=
  if 1 ≤ y ∧ y ≤ 9999 ∧ 1 ≤ m ∧ m ≤ 12 then
    some { year := y.toNat, month := m.toNat, day := 1 }
  else Option.none

/-- Lines 413-423: split the `YYYY-MM` key, build the first day of the
month and the first day of the following month (December rolls over to
January of the next year); any parse or constructor failure skips the
competence. -/
def parseCompBounds (comp : String) : Option (Date × Date) :=
  match (splitOnChar '-' comp.data).map String.mk with
  | [ys, ms] =>
    (pyInt ys).bind (fun y =>
      (pyInt ms).bind (fun m =>
        (mkDate y m).bind (fun start =>
          ((if m = 12 then mkDate (y + 1) 1 else mkDate y (m + 1)).map
            (fun next => (start, next))))))
  | _ => Option.none

/-- Lines 397-402: the period key contributed by one record — the first
seven characters of a truthy string `competence_date` of length at
least 7. -/
def compOf (r : Row) : Option String :=
  let v := (rowGet? r "competence_date").getD PyValue.null
  if v.truthy then
    match v with
    | PyValue.str s => if 7 ≤ s.length then some (String.mk (s.data.take 7)) else Option.none
    | _ => Option.none
  else Option.none

/-- Insert into a sorted string list (ascending). -/
def insertStr (x : String) : List String → List String
  | [] => [x]
  | y :: l => if strLeB x y then x :: y :: l else y :: insertStr x l

/-- Sort a string list ascending, as `sorted` does. -/
def sortStrings : List String → List String
  | [] => []
  | x :: l => insertStr x (sortStrings l)

/-- `sorted(competences_to_delete)` (lines 396-410): the distinct period
keys of the records, in ascending order. -/
def sortedComps (recs : List Row) : List String :=
  sortStrings (firstDedup (recs.filterMap compOf))

/-- A row of the `ifood_conciliation` store, as the period deletion
sees it: its owning account and its (possibly null) competence date. -/
structure StoredEntry where
  account_id : String
  competence_date : Option Date
deriving DecidableEq, Repr

/-- Whether the store's filter `eq(account_id) ∧ gte(month start) ∧
lt(next month start)` matches an entry. -/
def entryMatches (aid : String) (ms ns : Date) (e : StoredEntry) : Bool :=
  e.account_id == aid &&
    (match e.competence_date with
     | some d => dateLeB ms d && dateLtB d ns
     | Option.none => false)

/-- The period-scoped deletion loop (lines 410-436) applied to a store
state, with every issued delete succeeding: for each parsable period
key, remove the account's entries inside that month's half-open
interval. -/
def periodScopedDelete (store : List StoredEntry) (aid : String) (comps : List String) :
    List StoredEntry :=
  comps.foldl
    (fun st comp =>
      match parseCompBounds comp with
      | some bounds => st.filter (fun e => ¬ entryMatches aid bounds.1 bounds.2 e)
      | Option.none => st)
    store

/-! ### Batch persistence (`save_data_in_batches`, lines 337-452) -/

/-- One operation issued to the store by `save_data_in_batches`. -/
inductive StoreOp where
  | deleteByFile (fileId : String)
  | deleteByPeriod (accountId : String) (monthStart nextMonthStart : Date)
  | upsertBatch (batch : List Row)
deriving DecidableEq, Repr

/-- Auxiliary for `chunk100`, structurally recursive on fuel. -/
def chunk100F (fuel : Nat) (l : List Row) : List (List Row) :=
  match fuel, l with
  | 0, _ => []
  | _, [] => []
  | fuel + 1, l@(_ :: _) => l.take 100 :: chunk100F fuel (l.drop 100)

/-- `chunked(seq, 100)` with `batch_size = 100` (lines 98-100, 438),
with the list length as recursion fuel. -/
def chunk100 (l : List Row) : List (List Row) := chunk100F l.length l

/-- The sequential upsert loop (lines 440-451): issue each batch in
order; the first failing upsert re-raises, attempting no further
batch. -/
def runUpserts (exec : StoreOp → Bool) : List (List Row) → List StoreOp × Bool
  | [] => ([], true)
  | b :: bs =>
    if exec (StoreOp.upsertBatch b) then
      let rest := runUpserts exec bs
      (StoreOp.upsertBatch b :: rest.1, rest.2)
    else ([StoreOp.upsertBatch b], false)

/-- The period-delete operations issued for the unique records
(lines 394-436): one range delete per parsable sorted period key, none
when there are no records. -/
def periodOpsOf (accountId : String) (uniq : List Row) : List StoreOp :=
  (if uniq.isEmpty then [] else sortedComps uniq).filterMap (fun comp =>
    (parseCompBounds comp).map (fun bd => StoreOp.deleteByPeriod accountId bd.1 bd.2))

/-- `save_data_in_batches` (lines 333-452) as the sequence of store
operations it issues plus its outcome (`true` = returns, `false` =
raises). `exec` injects each operation's success. The outcomes of the
file-scoped delete (lines 338-349) and of each period delete
(lines 411-436) are consumed only by their `except`-and-log handlers,
so they are bound and discarded; a failed batch upsert stops the run
(lines 446-451). -/
def saveData (exec : StoreOp → Bool) (accountId fileId : String) (rows : List Row) :
    List StoreOp × Bool :=
  let fileOp := StoreOp.deleteByFile fileId
  let fileDeleteOutcome := exec fileOp
  let prepared := prepareRecords accountId fileId rows
  let uniq := uniqueRecords prepared
  let periodOps := periodOpsOf accountId uniq
  let periodOutcomes := periodOps.map exec
  let upserts := runUpserts exec (chunk100 uniq)
  let _ := (fileDeleteOutcome, periodOutcomes)
  (fileOp :: periodOps ++ upserts.1, upserts.2)

/-! ### Status reporting and orchestration (lines 128-166, 454-481) -/

/-- The `received_files.status` values. -/
inductive FileStatus where
  | pending
  | processing
  | processed
  | error
deriving DecidableEq, Repr

/-- The sequence of status values `process_conciliation_file`
(lines 454-481) writes for one run: `processing` first; then `error` if
reading/cleaning raised, `error` if the cleaned dataframe is empty,
`error` if saving raised, and `processed` when saving returned. -/
def orchestratorStatusWrites (readResult : Except String (List Row))
    (saveResult : Except String Unit) : List FileStatus :=
  FileStatus.processing ::
    (match readResult with
     | Except.error _ => [FileStatus.error]
     | Except.ok rows =>
       if rows.isEmpty then [FileStatus.error]
       else
         match saveResult with
         | Except.ok _ => [FileStatus.processed]
         | Except.error _ => [FileStatus.error])

/-- The last status written for the file. -/
def finalStatus (readResult : Except String (List Row)) (saveResult : Except String Unit) :
    FileStatus :=
  (orchestratorStatusWrites readResult saveResult).getLastD FileStatus.pending

/-- `json.dumps(record, allow_nan=False)`: fails whenever a value is
non-finite, otherwise renders the record. -/
def strictSerialize (r : Row) : Option String :=
  if r.all (fun kv => kv.2.isFinite) then some (renderJsonObj r) else Option.none

/-! ### Basic lemmas about rows -/

theorem rowGet?_nil (k : String) : rowGet? [] k = Option.none := rfl

theorem rowGet?_cons (kv : String × PyValue) (r : Row) (k : String) :
    rowGet? (kv :: r) k = if kv.1 = k then some kv.2 else rowGet? r k := by
  by_cases h : kv.1 = k
  · rw [rowGet?, List.find?_cons_of_pos _ (by simp [h]), if_pos h]; rfl
  · rw [rowGet?, List.find?_cons_of_neg _ (by simp [h]), if_neg h]; rfl

theorem rowGet?_rowSet_self (r : Row) (k : String) (v : PyValue) :
    rowGet? (rowSet r k v) k = some v := by
  induction r with
  | nil => simp [rowSet, rowGet?_cons, rowGet?_nil]
  | cons kv rest ih =>
    by_cases h : kv.1 = k
    · simp [rowSet, h, rowGet?_cons]
    · simp [rowSet, h, rowGet?_cons, ih]

theorem rowGet?_rowSet_ne (r : Row) (k k' : String) (v : PyValue) (h : k' ≠ k) :
    rowGet? (rowSet r k v) k' = rowGet? r k' := by
  induction r with
  | nil =>
    have hne : ¬ k = k' := fun hh => h (Eq.symm hh)
    simp [rowSet, rowGet?_cons, rowGet?_nil, hne]
  | cons kv rest ih =>
    by_cases hk : kv.1 = k
    · subst hk
      have hne : ¬ kv.1 = k' := fun hh => h (Eq.symm hh)
      simp [rowSet, rowGet?_cons, hne]
    · simp only [rowSet, hk, if_false]
      rw [rowGet?_cons, rowGet?_cons, ih]

theorem rowGet?_sanitizeRecord (r : Row) (k : String) :
    rowGet? (sanitizeRecord r) k = (rowGet? r k).map sanitizeValue := by
  induction r with
  | nil => simp [sanitizeRecord, rowGet?_nil]
  | cons kv rest ih =>
    have : sanitizeRecord (kv :: rest) = (kv.1, sanitizeValue kv.2) :: sanitizeRecord rest := rfl
    rw [this, rowGet?_cons, rowGet?_cons]
    by_cases h : kv.1 = k
    · simp [h]
    · simp [h, ih]

theorem mem_rowSet (r : Row) (k : String) (v : PyValue) (kv : String × PyValue)
    (h : kv ∈ rowSet r k v) : kv ∈ r ∨ kv = (k, v) := by
  induction r with
  | nil =>
    simp only [rowSet] at h
    right
    simpa using h
  | cons kv0 rest ih =>
    by_cases hk : kv0.1 = k
    · simp only [rowSet, hk, if_true] at h
      rcases List.mem_cons.mp h with h' | h'
      · right; exact h'
      · left; exact List.mem_cons_of_mem _ h'
    · simp only [rowSet, hk, if_false] at h
      rcases List.mem_cons.mp h with h' | h'
      · left; exact h' ▸ List.mem_cons_self _ _
      · rcases ih h' with h'' | h''
        · left; exact List.mem_cons_of_mem _ h''
        · right; exact h''

theorem mem_fst_rowSet (r : Row) (k : String) (v : PyValue) (k' : String)
    (h : k' ∈ r.map Prod.fst) : k' ∈ (rowSet r k v).map Prod.fst := by
  induction r with
  | nil => simp at h
  | cons kv0 rest ih =>
    by_cases hk : kv0.1 = k
    · simp only [rowSet, hk, if_true]
      simp only [List.map_cons, List.mem_cons] at h ⊢
      rcases h with h' | h'
      · left; exact h'.trans hk
      · right; exact h'
    · simp only [rowSet, hk, if_false]
      simp only [List.map_cons, List.mem_cons] at h ⊢
      rcases h with h' | h'
      · left; exact h'
      · right; exact ih h'

theorem mem_uniqueRecordsAux (seen : List PyValue) (l : List Row) (r : Row)
    (h : r ∈ uniqueRecordsAux seen l) : r ∈ l := by
  induction l generalizing seen with
  | nil => simp [uniqueRecordsAux] at h
  | cons r0 rest ih =>
    simp only [uniqueRecordsAux] at h
    by_cases h1 : (rowId r0).truthy = false
    · rw [if_pos h1] at h
      rcases List.mem_cons.mp h with h' | h'
      · exact h' ▸ List.mem_cons_self _ _
      · exact List.mem_cons_of_mem _ (ih seen h')
    · rw [if_neg h1] at h
      by_cases h2 : List.contains seen (rowId r0)
      · rw [if_pos h2] at h
        exact List.mem_cons_of_mem _ (ih seen h)
      · rw [if_neg h2] at h
        rcases List.mem_cons.mp h with h' | h'
        · exact h' ▸ List.mem_cons_self _ _
        · exact List.mem_cons_of_mem _ (ih _ h')

theorem mem_uniqueRecords (l : List Row) (r : Row) (h : r ∈ uniqueRecords l) : r ∈ l :=
  mem_uniqueRecordsAux [] l r h

/-! ### C7 — layout detection -/

/-- C7: for a normalized (trimmed, lower-cased) column-name set and
optional hint, a hint that is the literal `legacy` or `v3` is returned
unchanged; otherwise the detector returns `v3` exactly when all four v3
marker columns are present, and `legacy` in every other case. -/
theorem detectLayout_hint_and_markers (cols : List String) (hint : Option String)
    (hnorm : ∀ s, hint = some s → pyLower (pyStrip s) = s) :
    ((hint = some "legacy" ∨ hint = some "v3") →
       detectLayout cols hint = hint.getD "") ∧
    (hint ≠ some "legacy" → hint ≠ some "v3" →
       ((detectLayout cols hint = "v3" ↔
           V3_MARKERS.all (fun m => m ∈ cols) = true) ∧
        (¬ V3_MARKERS.all (fun m => m ∈ cols) = true →
           detectLayout cols hint = "legacy"))) := by
  constructor
  · rintro (rfl | rfl)
    · have h1 : normalizeLayoutHint (some "legacy") = some "legacy" := by decide
      unfold detectLayout
      rw [h1]
      rfl
    · have h1 : normalizeLayoutHint (some "v3") = some "v3" := by decide
      unfold detectLayout
      rw [h1]
      rfl
  · intro h1 h2
    have hnone : normalizeLayoutHint hint = Option.none := by
      cases hint with
      | none => rfl
      | some s =>
        have hs := hnorm s rfl
        simp only [normalizeLayoutHint]
        by_cases hse : s = ""
        · simp [hse]
        · rw [if_neg hse, hs]
          have hno : ¬ (s = "legacy" ∨ s = "v3") := by
            rintro (rfl | rfl)
            · exact h1 rfl
            · exact h2 rfl
          simp [hno]
    have hd : detectLayout cols hint =
        if V3_MARKERS.all (fun m => m ∈ cols) then "v3" else "legacy" := by
      unfold detectLayout
      rw [hnone]
    rw [hd]
    by_cases hb : V3_MARKERS.all (fun m => m ∈ cols) = true
    · rw [if_pos hb]
      exact ⟨⟨fun _ => hb, fun _ => rfl⟩, fun hf => absurd hb hf⟩
    · rw [if_neg hb]
      refine ⟨⟨fun hL => absurd hL (by decide), fun hb' => absurd hb' hb⟩, fun _ => rfl⟩

/-- C7 witness: a `legacy` hint is returned even when all markers are
present, and with no hint the marker set decides. -/
theorem detectLayout_hint_and_markers_witness :
    detectLayout ["pedido_detalhes", "id_saldo", "metodo_pagamento", "bandeira_pagamento"]
        (some "legacy") = "legacy" ∧
    detectLayout ["pedido_detalhes", "id_saldo", "metodo_pagamento", "bandeira_pagamento"]
        Option.none = "v3" := by
  constructor
  · exact (detectLayout_hint_and_markers _ (some "legacy")
      (by intro s h; cases h; decide)).1 (Or.inl rfl)
  · exact ((detectLayout_hint_and_markers _ Option.none
      (by intro s h; cases h)).2 (by simp) (by simp)).1.mpr (by decide)

/-! ### C8 — worksheet selection -/

/-- C8: worksheet selection returns the second sheet for a `legacy`
hint (when a second sheet exists), the first for a `v3` hint, the
second when there is no hint and more than one sheet, and the first
otherwise; an empty worksheet list is a fatal error. -/
theorem selectSheetName_cases (names : List String) (hint : Option String)
    (hdom : hint = Option.none ∨ hint = some "legacy" ∨ hint = some "v3") :
    (hint = some "legacy" → 1 < names.length →
       selectSheetName names hint = Except.ok (names.getD 1 "")) ∧
    (names ≠ [] → hint = some "v3" →
       selectSheetName names hint = Except.ok (names.getD 0 "")) ∧
    (hint = Option.none → 1 < names.length →
       selectSheetName names hint = Except.ok (names.getD 1 "")) ∧
    (names.length = 1 → hint ≠ some "v3" →
       selectSheetName names hint = Except.ok (names.getD 0 "")) ∧
    (names = [] → ∃ msg, selectSheetName names hint = Except.error msg) := by
  have hleg : normalizeLayoutHint (some "legacy") = some "legacy" := by decide
  have hv3 : normalizeLayoutHint (some "v3") = some "v3" := by decide
  have hnn : normalizeLayoutHint Option.none = Option.none := rfl
  refine ⟨?_, ?_, ?_, ?_, ?_⟩
  · rintro rfl hlen
    have hne : names ≠ [] := by
      intro h; rw [h] at hlen; simp at hlen
    simp [selectSheetName, hne, hleg, hlen]
  · intro hne hv
    subst hv
    simp [selectSheetName, hne, hv3]
  · rintro rfl hlen
    have hne : names ≠ [] := by
      intro h; rw [h] at hlen; simp at hlen
    simp [selectSheetName, hne, hnn, hlen]
  · intro hlen hnv
    have hne : names ≠ [] := by
      intro h; rw [h] at hlen; simp at hlen
    have hnotlt : ¬ 1 < names.length := by omega
    rcases hdom with rfl | rfl | rfl
    · simp [selectSheetName, hne, hnn, hnotlt]
    · simp [selectSheetName, hne, hleg, hnotlt]
    · exact absurd rfl hnv
  · rintro rfl
    exact ⟨"Arquivo Excel sem abas disponíveis.", by simp [selectSheetName]⟩

/-- C8 witness: both hints, the hintless multi-sheet default, the
single-sheet fallback, and the empty-workbook error, on concrete
workbooks. -/
theorem selectSheetName_cases_witness :
    selectSheetName ["s0", "s1"] (some "legacy") = Except.ok "s1" ∧
    selectSheetName ["s0", "s1"] (some "v3") = Except.ok "s0" ∧
    selectSheetName ["s0", "s1"] Option.none = Except.ok "s1" ∧
    selectSheetName ["s0"] (some "legacy") = Except.ok "s0" ∧
    (∃ msg, selectSheetName [] Option.none = Except.error msg) := by
  refine ⟨?_, ?_, ?_, ?_, ?_⟩
  · exact (selectSheetName_cases ["s0", "s1"] (some "legacy")
      (Or.inr (Or.inl rfl))).1 rfl (by decide)
  · exact (selectSheetName_cases ["s0", "s1"] (some "v3")
      (Or.inr (Or.inr rfl))).2.1 (by decide) rfl
  · exact (selectSheetName_cases ["s0", "s1"] Option.none
      (Or.inl rfl)).2.2.1 rfl (by decide)
  · exact (selectSheetName_cases ["s0"] (some "legacy")
      (Or.inr (Or.inl rfl))).2.2.2.1 (by decide) (by decide)
  · exact (selectSheetName_cases [] Option.none (Or.inl rfl)).2.2.2.2 rfl

/-! ### C5 — terminal status -/

/-- C5: whatever the read/clean stage and the save stage do, the final
status written for the file is `processed` or `error` (never
`processing`), and it is `processed` exactly when reading produced a
non-empty cleaned dataset and every batch was saved. -/
theorem orchestrator_terminal_status (readResult : Except String (List Row))
    (saveResult : Except String Unit) :
    (finalStatus readResult saveResult = FileStatus.processed ∨
       finalStatus readResult saveResult = FileStatus.error) ∧
    (finalStatus readResult saveResult = FileStatus.processed ↔
       ∃ rows, readResult = Except.ok rows ∧ rows ≠ [] ∧ saveResult = Except.ok ()) := by
  cases readResult with
  | error e => simp [finalStatus, orchestratorStatusWrites]
  | ok rows =>
    by_cases hrows : rows.isEmpty
    · have hnil : rows = [] := by simpa [List.isEmpty_iff] using hrows
      simp [finalStatus, orchestratorStatusWrites, hrows, hnil]
    · have hne : rows ≠ [] := by simpa [List.isEmpty_iff] using hrows
      cases saveResult with
      | ok u =>
        cases u
        simp [finalStatus, orchestratorStatusWrites, hrows, hne]
      | error e =>
        simp [finalStatus, orchestratorStatusWrites, hrows]

/-! ### C1 — field cleaning of the scenario row -/

/-- The scenario row of the spec (legacy CSV): competence, a monetary
cell in Brazilian format, and a numeric-typed store id. -/
def scenarioRawRow : Row :=
  [("competencia", PyValue.str "2024-06-01"),
   ("valor", PyValue.str "1.234,56"),
   ("loja_id", PyValue.str "10.0")]

/-- The scenario row after the cleaning stage (the date parser plays no
role in the two fields at issue). -/
def scenarioCleanedRow : Row :=
  ((cleanRows (fun _ => Option.none) ["competencia", "valor", "loja_id"]
      [scenarioRawRow] Option.none).1).getD 0 []

/-- C1 counterexample: on the monetary cell `"1.234,56"` the cleaner
keeps both separators, turns the comma into a second period
(`"1.234.56"`), fails the numeric parse, and stores null — not the
claimed `1234.56`. -/
theorem monetary_thousands_separator_counterexample :
    commaToDot (moneyFilter (pyStr (PyValue.str "1.234,56"))) = "1.234.56" ∧
    rowGet? scenarioCleanedRow "gross_value" = some PyValue.null ∧
    rowGet? scenarioCleanedRow "gross_value" ≠ some (PyValue.num (123456 / 100)) := by
  refine ⟨by decide, by decide, by decide⟩

/-- C1 as amended: the monetary cell `"1.234,56"` cleans to null (the
stripped string becomes `"1.234.56"`, which numeric parsing rejects),
and the identifier cell `"10.0"` cleans to the string `"10"`. -/
theorem field_cleaner_scenario_amended :
    rowGet? scenarioCleanedRow "gross_value" = some PyValue.null ∧
    rowGet? scenarioCleanedRow "store_id" = some (PyValue.str "10") := by
  refine ⟨by decide, by decide⟩

/-! ### Structure of the identity payload -/

theorem stringExt (a b : String) (h : a.data = b.data) : a = b := by
  cases a; cases b; exact congrArg String.mk h

theorem strAppend_cancel_left (a b c : String) (h : a ++ b = a ++ c) : b = c := by
  apply stringExt
  have hd := congrArg String.data h
  rw [String.data_append, String.data_append] at hd
  exact List.append_cancel_left hd

theorem charListLtB_irrefl (l : List Char) : charListLtB l l = false := by
  induction l with
  | nil => rfl
  | cons a as ih =>
    simp only [charListLtB]
    rw [if_neg (lt_irrefl a), if_neg (lt_irrefl a)]
    exact ih

theorem charListLtB_asymm (l1 : List Char) : ∀ l2, charListLtB l1 l2 = true →
    charListLtB l2 l1 = false := by
  induction l1 with
  | nil =>
    intro l2 h
    cases l2 with
    | nil => exact absurd h (by decide)
    | cons b bs => rfl
  | cons a as ih =>
    intro l2 h
    cases l2 with
    | nil =>
      rw [show charListLtB (a :: as) [] = false from rfl] at h
      exact Bool.noConfusion h
    | cons b bs =>
      simp only [charListLtB] at h ⊢
      by_cases hab : a < b
      · rw [if_neg (asymm hab), if_pos hab]
      · rw [if_neg hab] at h
        by_cases hba : b < a
        · rw [if_pos hba] at h
          exact Bool.noConfusion h
        · rw [if_neg hba] at h
          rw [if_neg hba, if_neg hab]
          exact ih bs h

theorem charListLtB_ne (l1 l2 : List Char) (h : charListLtB l1 l2 = true) : l1 ≠ l2 := by
  intro he
  subst he
  rw [charListLtB_irrefl] at h
  exact Bool.noConfusion h

theorem strLeB_false_of_lt (a b : String) (h : strLtB a b = true) : strLeB b a = false := by
  unfold strLeB strLtB
  rw [charListLtB_asymm _ _ h]
  have hne : a.data ≠ b.data := charListLtB_ne _ _ h
  have hbeq : (b == a) = false := by
    rw [beq_eq_false_iff_ne]
    intro he
    exact hne (congrArg String.data he.symm)
  simp [hbeq]

theorem dedupeBasis_keys (r : Row) (kv : String × PyValue) (h : kv ∈ dedupeBasis r) :
    kv.1 ∈ NATURAL_KEY_COLUMNS := by
  unfold dedupeBasis at h
  obtain ⟨k, hk, hkv⟩ := List.mem_filterMap.mp h
  cases ho : rowGet? r k with
  | none => rw [ho] at hkv; cases hkv
  | some v =>
    rw [ho] at hkv
    injection hkv with hkv
    rw [← hkv]
    exact hk

theorem nkc_gt_rowIndex : ∀ k ∈ NATURAL_KEY_COLUMNS, strLtB "_row_index" k = true := by
  decide

theorem sortByKey_append_rowIndex (L : List (String × PyValue)) (pv : PyValue)
    (hmin : ∀ kv ∈ L, strLtB "_row_index" kv.1 = true) :
    sortByKey (L ++ [("_row_index", pv)]) = ("_row_index", pv) :: sortByKey L := by
  induction L with
  | nil => rfl
  | cons x L' ih =>
    have hx := hmin x (List.mem_cons_self _ _)
    have hrec := ih (fun kv hkv => hmin kv (List.mem_cons_of_mem _ hkv))
    show insertByKey x (sortByKey (L' ++ [("_row_index", pv)])) =
      ("_row_index", pv) :: insertByKey x (sortByKey L')
    rw [hrec]
    simp only [insertByKey]
    rw [if_neg (by rw [strLeB_false_of_lt _ _ hx]; exact Bool.false_ne_true)]

/-- The tail of a comma-joined list after its first item. -/
def joinCommaTail (l : List String) : String :=
  match l with
  | [] => ""
  | x :: xs => ", " ++ joinComma (x :: xs)

theorem joinComma_cons (a : String) (l : List String) :
    joinComma (a :: l) = a ++ joinCommaTail l := by
  cases l with
  | nil =>
    show a = a ++ ""
    exact (String.append_empty a).symm
  | cons b bs =>
    show (a ++ ", ") ++ joinComma (b :: bs) = a ++ (", " ++ joinComma (b :: bs))
    exact String.append_assoc a ", " (joinComma (b :: bs))

/-- The serialized payload after the `_row_index` item. -/
def payloadTail (L : List (String × PyValue)) : String :=
  joinCommaTail (L.map renderEntry) ++ "\x7d"

/-- The constant prefix of every identity payload: the object opener
and the serialized `_row_index` key. -/
def rowIndexKeyStr : String := "\x7b\"_row_index\": "

theorem basisPayload_data (i : Nat) (r : Row) :
    (basisPayload i r).data =
      rowIndexKeyStr.data ++ ((decRepr i).data ++
        (payloadTail (sortByKey (dedupeBasis r))).data) := by
  unfold basisPayload
  rw [sortByKey_append_rowIndex _ _
    (fun kv hkv => nkc_gt_rowIndex kv.1 (dedupeBasis_keys r kv hkv))]
  unfold renderJsonObj
  rw [List.map_cons, joinComma_cons]
  have hentry : renderEntry ("_row_index", PyValue.int i) =
      ("\"_row_index\": " : String) ++ decRepr i := by
    show ("\"" ++ jsonEscape "_row_index" ++ "\": ") ++ renderJsonValue (PyValue.int i) =
      ("\"_row_index\": " : String) ++ decRepr i
    rw [show jsonEscape "_row_index" = "_row_index" from by decide]
    rw [show ("\"" ++ "_row_index" ++ "\": " : String) = "\"_row_index\": " from by decide]
    rfl
  rw [hentry]
  unfold payloadTail rowIndexKeyStr
  simp only [String.data_append, List.append_assoc]
  rfl

theorem payloadTail_head (L : List (String × PyValue)) :
    ∀ c, (payloadTail L).data.head? = some c → c.isDigit = false := by
  intro c hc
  cases L with
  | nil =>
    rw [show (payloadTail []).data = ['\x7d'] from by decide] at hc
    simp only [List.head?] at hc
    cases hc
    decide
  | cons x xs =>
    have hh : (payloadTail (x :: xs)).data.head? = some ',' := by
      show ((joinCommaTail ((x :: xs).map renderEntry)) ++ "\x7d").data.head? = some ','
      rw [List.map_cons]
      rw [show joinCommaTail (renderEntry x :: (xs.map renderEntry)) =
        ", " ++ joinComma (renderEntry x :: (xs.map renderEntry)) from rfl]
      rw [String.data_append, String.data_append]
      rfl
    rw [hh] at hc
    cases hc
    decide

theorem digits_head_split (d1 : List Char) : ∀ (d2 r1 r2 : List Char),
    (∀ c ∈ d1, c.isDigit = true) → (∀ c ∈ d2, c.isDigit = true) →
    (∀ c, r1.head? = some c → c.isDigit = false) →
    (∀ c, r2.head? = some c → c.isDigit = false) →
    d1 ++ r1 = d2 ++ r2 → d1 = d2 := by
  induction d1 with
  | nil =>
    intro d2 r1 r2 h1 h2 hr1 hr2 h
    cases d2 with
    | nil => rfl
    | cons b bs =>
      exfalso
      simp only [List.nil_append, List.cons_append] at h
      have hd := hr1 b (by rw [h]; rfl)
      rw [h2 b (by simp)] at hd
      cases hd
  | cons a as ih =>
    intro d2 r1 r2 h1 h2 hr1 hr2 h
    cases d2 with
    | nil =>
      exfalso
      simp only [List.nil_append, List.cons_append] at h
      have hd := hr2 a (by rw [← h]; rfl)
      rw [h1 a (by simp)] at hd
      cases hd
    | cons b bs =>
      simp only [List.cons_append, List.cons.injEq] at h
      rw [h.1, ih bs r1 r2 (fun c hc => h1 c (by simp [hc]))
        (fun c hc => h2 c (by simp [hc])) hr1 hr2 h.2]

theorem basisPayload_index_inj (i j : Nat) (r1 r2 : Row)
    (h : basisPayload i r1 = basisPayload j r2) : i = j := by
  have hd := congrArg String.data h
  rw [basisPayload_data, basisPayload_data] at hd
  have hd2 := List.append_cancel_left hd
  have hdi := digits_head_split _ _ _ _ (decRepr_all_digits i) (decRepr_all_digits j)
    (payloadTail_head _) (payloadTail_head _) hd2
  exact decRepr_inj i j (stringExt _ _ hdi)

/-! ### Identity lemmas for prepared records -/

theorem prepareRecord_id (aid : String) (i : Nat) (rec : Row) :
    rowGet? (prepareRecord aid i rec) "id" =
      some (PyValue.str (uuid5str (aid ++ "|" ++ basisPayload i (sanitizeRecord rec)))) := by
  simp only [prepareRecord]
  rw [rowGet?_rowSet_ne _ _ _ _ (by decide), rowGet?_rowSet_self]

theorem dedupeBasis_congr (r1 r2 : Row)
    (h : ∀ k ∈ NATURAL_KEY_COLUMNS, rowGet? r1 k = rowGet? r2 k) :
    dedupeBasis r1 = dedupeBasis r2 := by
  unfold dedupeBasis
  exact List.filterMap_congr (fun k hk => by rw [h k hk])

theorem dedupeBasis_rowSet (r : Row) (k : String) (v : PyValue)
    (hk : ∀ k' ∈ NATURAL_KEY_COLUMNS, k' ≠ k) :
    dedupeBasis (rowSet r k v) = dedupeBasis r :=
  dedupeBasis_congr _ _ (fun k' hk' => rowGet?_rowSet_ne r k k' v (hk k' hk'))

theorem prepareRecord_hash (aid : String) (i : Nat) (rec : Row) :
    rowGet? (prepareRecord aid i rec) "natural_hash" =
      some (PyValue.str (md5str
        (renderJsonObj (sortByKey (dedupeBasis (sanitizeRecord rec)))))) := by
  simp only [prepareRecord]
  rw [rowGet?_rowSet_self, dedupeBasis_rowSet _ _ _ (by decide)]

theorem rowId_prepareRecord (aid : String) (i : Nat) (rec : Row) :
    rowId (prepareRecord aid i rec) =
      PyValue.str (uuid5str (aid ++ "|" ++ basisPayload i (sanitizeRecord rec))) := by
  unfold rowId
  rw [prepareRecord_id]
  rfl

theorem enumFrom_get? (l : List Row) : ∀ (n i : Nat),
    (List.enumFrom n l).get? i = (l.get? i).map (fun a => (n + i, a)) := by
  induction l with
  | nil => intro n i; cases i <;> rfl
  | cons x xs ih =>
    intro n i
    cases i with
    | zero => simp [List.enumFrom]
    | succ i' =>
      show (List.enumFrom (n + 1) xs).get? i' = (xs.get? i').map (fun a => (n + (i' + 1), a))
      rw [ih (n + 1) i']
      cases xs.get? i' <;> simp
      omega

theorem prepareRecords_get? (aid fid : String) (rows : List Row) (i : Nat) :
    (prepareRecords aid fid rows).get? i =
      (rows.get? i).map (fun r => prepareRecord aid i
        (rowSet (rowSet r "account_id" (PyValue.str aid))
          "received_file_id" (PyValue.str fid))) := by
  unfold prepareRecords
  rw [List.get?_map]
  rw [show List.enum = fun (l : List Row) => List.enumFrom 0 l from rfl]
  rw [enumFrom_get? _ 0 i, List.get?_map]
  cases rows.get? i <;> simp

theorem prepareRecords_id_inj (aid fid : String) (rows : List Row) (i j : Nat)
    (p1 p2 : Row)
    (h1 : (prepareRecords aid fid rows).get? i = some p1)
    (h2 : (prepareRecords aid fid rows).get? j = some p2)
    (hid : rowId p1 = rowId p2) : i = j := by
  rw [prepareRecords_get?] at h1 h2
  cases hr1 : rows.get? i with
  | none => rw [hr1] at h1; cases h1
  | some r1 =>
    cases hr2 : rows.get? j with
    | none => rw [hr2] at h2; cases h2
    | some r2 =>
      rw [hr1] at h1
      rw [hr2] at h2
      injection h1 with h1
      injection h2 with h2
      rw [← h1, ← h2, rowId_prepareRecord, rowId_prepareRecord] at hid
      injection hid with hid
      have hid2 := strAppend_cancel_left _ _ _ hid
      have hid3 := strAppend_cancel_left _ _ _ hid2
      exact basisPayload_index_inj _ _ _ _ hid3

theorem uuid5str_ne_empty (s : String) : uuid5str s ≠ "" := by
  intro h
  have hd := congrArg String.data h
  rw [show (uuid5str s).data = "uuid5:".data ++ s.data from String.data_append _ _] at hd
  simp at hd

theorem rowId_prepareRecords_truthy (aid fid : String) (rows : List Row) (r : Row)
    (h : r ∈ prepareRecords aid fid rows) : (rowId r).truthy = true := by
  obtain ⟨n, hn⟩ := List.mem_iff_get?.mp h
  rw [prepareRecords_get?] at hn
  cases hr : rows.get? n with
  | none => rw [hr] at hn; cases hn
  | some r0 =>
    rw [hr] at hn
    injection hn with hn
    rw [← hn, rowId_prepareRecord]
    simp [PyValue.truthy, uuid5str_ne_empty]

theorem prepareRecords_pairwise_ne (aid fid : String) (rows : List Row) :
    (prepareRecords aid fid rows).Pairwise (fun a b => rowId a ≠ rowId b) := by
  rw [List.pairwise_iff_get]
  intro i j hij hid
  have h1 := List.get?_eq_get i.isLt
  have h2 := List.get?_eq_get j.isLt
  have := prepareRecords_id_inj aid fid rows i.1 j.1 _ _ h1 h2 hid
  omega

theorem uniqueRecordsAux_eq_self (l : List Row) : ∀ (seen : List PyValue),
    (∀ r ∈ l, (rowId r).truthy = true) →
    l.Pairwise (fun a b => rowId a ≠ rowId b) →
    (∀ r ∈ l, seen.contains (rowId r) = false) →
    uniqueRecordsAux seen l = l := by
  induction l with
  | nil => intro seen _ _ _; rfl
  | cons r rs ih =>
    intro seen htruthy hpair hseen
    have ht := htruthy r (List.mem_cons_self _ _)
    have hs := hseen r (List.mem_cons_self _ _)
    obtain ⟨hhead, htail⟩ := List.pairwise_cons.mp hpair
    have h1 : uniqueRecordsAux seen (r :: rs) =
        r :: uniqueRecordsAux (rowId r :: seen) rs := by
      simp only [uniqueRecordsAux]
      rw [ht, hs]
      simp
    rw [h1]
    congr 1
    refine ih (rowId r :: seen)
      (fun r' hr' => htruthy r' (List.mem_cons_of_mem _ hr')) htail
      (fun r' hr' => ?_)
    have hne : rowId r ≠ rowId r' := hhead r' hr'
    rw [List.contains_cons]
    rw [beq_eq_false_iff_ne.mpr (fun he => hne he.symm)]
    rw [hseen r' (List.mem_cons_of_mem _ hr')]
    rfl

theorem uniqueRecords_prepareRecords (aid fid : String) (rows : List Row) :
    uniqueRecords (prepareRecords aid fid rows) = prepareRecords aid fid rows :=
  uniqueRecordsAux_eq_self _ []
    (fun r hr => rowId_prepareRecords_truthy aid fid rows r hr)
    (prepareRecords_pairwise_ne aid fid rows)
    (fun _ _ => rfl)

theorem uniqueRecordsAux_filter_firstocc (v : PyValue) (hv : v.truthy = true)
    (l : List Row) : ∀ (seen : List PyValue),
    (uniqueRecordsAux seen l).filter (fun r => rowId r == v) =
      (if seen.contains v then [] else (l.filter (fun r => rowId r == v)).take 1) := by
  induction l with
  | nil =>
    intro seen
    cases hc : seen.contains v <;> simp [uniqueRecordsAux]
  | cons r rs ih =>
    intro seen
    by_cases ht : (rowId r).truthy = false
    · have hne : rowId r ≠ v := fun he => by rw [he, hv] at ht; cases ht
      have hbeq : (rowId r == v) = false := beq_eq_false_iff_ne.mpr hne
      have h1 : uniqueRecordsAux seen (r :: rs) = r :: uniqueRecordsAux seen rs := by
        simp only [uniqueRecordsAux]
        rw [ht]
        simp
      rw [h1, List.filter_cons, hbeq]
      simp only [if_false, Bool.false_eq_true]
      rw [ih seen, List.filter_cons, hbeq]
      simp
    · have ht' : (rowId r).truthy = true := by
        cases hb : (rowId r).truthy
        · exact absurd hb ht
        · rfl
      by_cases hc : seen.contains (rowId r) = true
      · have h1 : uniqueRecordsAux seen (r :: rs) = uniqueRecordsAux seen rs := by
          simp only [uniqueRecordsAux]
          rw [ht', hc]
          simp
        rw [h1, ih seen]
        by_cases hrv : rowId r = v
        · rw [if_pos (by rw [← hrv]; exact hc), if_pos (by rw [← hrv]; exact hc)]
        · have hbeq : (rowId r == v) = false := beq_eq_false_iff_ne.mpr hrv
          rw [List.filter_cons, hbeq]
          simp
      · have hc' : seen.contains (rowId r) = false := by
          cases hb : seen.contains (rowId r)
          · rfl
          · exact absurd hb hc
        have h1 : uniqueRecordsAux seen (r :: rs) =
            r :: uniqueRecordsAux (rowId r :: seen) rs := by
          simp only [uniqueRecordsAux]
          rw [ht', hc']
          simp
        rw [h1]
        by_cases hrv : rowId r = v
        · have hbeq : (rowId r == v) = true := beq_iff_eq.mpr hrv
          rw [List.filter_cons, hbeq]
          simp only [if_true]
          rw [ih (rowId r :: seen)]
          rw [if_pos (by rw [List.contains_cons, beq_iff_eq.mpr hrv.symm]; simp)]
          rw [if_neg (by rw [← hrv]; rw [hc']; simp)]
          rw [List.filter_cons, hbeq]
          simp
        · have hbeq : (rowId r == v) = false := beq_eq_false_iff_ne.mpr hrv
          rw [List.filter_cons, hbeq]
          simp only [Bool.false_eq_true, if_false]
          rw [ih (rowId r :: seen)]
          have hcc : (rowId r :: seen).contains v = seen.contains v := by
            rw [List.contains_cons,
              beq_eq_false_iff_ne.mpr (fun he => hrv he.symm)]
            simp
          rw [hcc, List.filter_cons, hbeq]
          simp

theorem nkc_ne_special : ∀ k ∈ NATURAL_KEY_COLUMNS,
    k ≠ "account_id" ∧ k ≠ "received_file_id" := by
  decide

theorem natural_keys_transfer (r : Row) (aid fid : String) (k : String)
    (hk : k ∈ NATURAL_KEY_COLUMNS) :
    rowGet? (sanitizeRecord (rowSet (rowSet r "account_id" (PyValue.str aid))
      "received_file_id" (PyValue.str fid))) k = (rowGet? r k).map sanitizeValue := by
  rw [rowGet?_sanitizeRecord,
    rowGet?_rowSet_ne _ _ _ _ (nkc_ne_special k hk).2,
    rowGet?_rowSet_ne _ _ _ _ (nkc_ne_special k hk).1]

/-! ### C2 — ordinal disambiguation of identical rows -/

/-- C2: two rows of one file with identical natural-key field values at
different ordinal positions are both retained (the in-file dedup drops
nothing from prepared records), carry equal non-null `natural_hash`
values, and receive different `id`s; and on any record list the dedup
loop keeps exactly the first occurrence of each truthy id, dropping the
later ones. -/
theorem duplicate_rows_separate_entries (aid fid : String) (rows : List Row)
    (i j : Nat) (r1 r2 p1 p2 : Row)
    (hi : rows.get? i = some r1) (hj : rows.get? j = some r2) (hij : i ≠ j)
    (hp1 : (prepareRecords aid fid rows).get? i = some p1)
    (hp2 : (prepareRecords aid fid rows).get? j = some p2)
    (hkeys : ∀ k ∈ NATURAL_KEY_COLUMNS, rowGet? r1 k = rowGet? r2 k) :
    (rowGet? p1 "natural_hash" = rowGet? p2 "natural_hash" ∧
     rowGet? p1 "natural_hash" ≠ Option.none) ∧
    rowGet? p1 "id" ≠ rowGet? p2 "id" ∧
    uniqueRecords (prepareRecords aid fid rows) = prepareRecords aid fid rows ∧
    (∀ (rs : List Row) (v : PyValue), v.truthy = true →
      (uniqueRecords rs).filter (fun r => rowId r == v) =
        (rs.filter (fun r => rowId r == v)).take 1) := by
  have hp1' := hp1
  have hp2' := hp2
  rw [prepareRecords_get?, hi] at hp1'
  rw [prepareRecords_get?, hj] at hp2'
  injection hp1' with hp1'
  injection hp2' with hp2'
  have hbasis : dedupeBasis (sanitizeRecord (rowSet (rowSet r1 "account_id"
        (PyValue.str aid)) "received_file_id" (PyValue.str fid))) =
      dedupeBasis (sanitizeRecord (rowSet (rowSet r2 "account_id"
        (PyValue.str aid)) "received_file_id" (PyValue.str fid))) := by
    apply dedupeBasis_congr
    intro k hk
    rw [natural_keys_transfer _ _ _ _ hk, natural_keys_transfer _ _ _ _ hk, hkeys k hk]
  refine ⟨⟨?_, ?_⟩, ?_, ?_, ?_⟩
  · rw [← hp1', ← hp2', prepareRecord_hash, prepareRecord_hash, hbasis]
  · rw [← hp1', prepareRecord_hash]
    intro h
    cases h
  · intro h
    apply hij
    apply prepareRecords_id_inj aid fid rows i j p1 p2 hp1 hp2
    unfold rowId
    rw [h]
  · exact uniqueRecords_prepareRecords aid fid rows
  · intro rs v hv
    show (uniqueRecordsAux [] rs).filter (fun r => rowId r == v) = _
    rw [uniqueRecordsAux_filter_firstocc v hv rs []]
    rfl

/-- C2 witness: a two-row file with identical rows; the two prepared
entries agree on `natural_hash` and differ on `id`. -/
theorem duplicate_rows_separate_entries_witness :
    rowGet? ((prepareRecords "acct" "file"
        [[("title", PyValue.str "x")], [("title", PyValue.str "x")]]).getD 0 [])
        "natural_hash" =
      rowGet? ((prepareRecords "acct" "file"
        [[("title", PyValue.str "x")], [("title", PyValue.str "x")]]).getD 1 [])
        "natural_hash" ∧
    rowGet? ((prepareRecords "acct" "file"
        [[("title", PyValue.str "x")], [("title", PyValue.str "x")]]).getD 0 []) "id" ≠
      rowGet? ((prepareRecords "acct" "file"
        [[("title", PyValue.str "x")], [("title", PyValue.str "x")]]).getD 1 []) "id" := by
  have h := duplicate_rows_separate_entries "acct" "file"
    [[("title", PyValue.str "x")], [("title", PyValue.str "x")]] 0 1
    [("title", PyValue.str "x")] [("title", PyValue.str "x")]
    ((prepareRecords "acct" "file"
      [[("title", PyValue.str "x")], [("title", PyValue.str "x")]]).getD 0 [])
    ((prepareRecords "acct" "file"
      [[("title", PyValue.str "x")], [("title", PyValue.str "x")]]).getD 1 [])
    rfl rfl (by decide) (by decide) (by decide) (fun k _ => rfl)
  exact ⟨h.1.1, h.2.1⟩

/-! ### C3 — the id is a function of account, natural keys and ordinal -/

/-- C3: for a fixed `account_id`, the sequence of computed ids depends
only on the natural-key field values of each record and its ordinal
position — two record sequences that agree on every natural-key field
position-wise receive identical id sequences (so re-running the
computation on the same cleaned data yields identical ids). -/
theorem id_deterministic_function (aid fid : String) (rows1 rows2 : List Row)
    (hlen : rows1.length = rows2.length)
    (hkeys : ∀ i r1 r2, rows1.get? i = some r1 → rows2.get? i = some r2 →
      ∀ k ∈ NATURAL_KEY_COLUMNS, rowGet? r1 k = rowGet? r2 k) :
    (prepareRecords aid fid rows1).map rowId =
      (prepareRecords aid fid rows2).map rowId := by
  apply List.ext
  intro n
  rw [List.get?_map, List.get?_map, prepareRecords_get?, prepareRecords_get?]
  cases h1 : rows1.get? n with
  | none =>
    have h2 : rows2.get? n = Option.none := by
      rw [List.get?_eq_none] at h1 ⊢
      omega
    rw [h2]
  | some r1 =>
    have hlt : n < rows2.length := by
      obtain ⟨hl, _⟩ := List.get?_eq_some.mp h1
      omega
    cases h2 : rows2.get? n with
    | none =>
      rw [List.get?_eq_none] at h2
      omega
    | some r2 =>
      simp only [Option.map_some']
      have hbasis : dedupeBasis (sanitizeRecord (rowSet (rowSet r1 "account_id"
            (PyValue.str aid)) "received_file_id" (PyValue.str fid))) =
          dedupeBasis (sanitizeRecord (rowSet (rowSet r2 "account_id"
            (PyValue.str aid)) "received_file_id" (PyValue.str fid))) := by
        apply dedupeBasis_congr
        intro k hk
        rw [natural_keys_transfer _ _ _ _ hk, natural_keys_transfer _ _ _ _ hk,
          hkeys n r1 r2 h1 h2 k hk]
      have hid : rowId (prepareRecord aid n (rowSet (rowSet r1 "account_id"
            (PyValue.str aid)) "received_file_id" (PyValue.str fid))) =
          rowId (prepareRecord aid n (rowSet (rowSet r2 "account_id"
            (PyValue.str aid)) "received_file_id" (PyValue.str fid))) := by
        rw [rowId_prepareRecord, rowId_prepareRecord]
        unfold basisPayload
        rw [hbasis]
      rw [hid]

/-- C3 witness: two one-row files that differ only in a field outside
the natural key receive the same id sequence. -/
theorem id_deterministic_function_witness :
    (prepareRecords "acct" "file" [[("other", PyValue.str "x")]]).map rowId =
      (prepareRecords "acct" "file" [[("other", PyValue.str "y")]]).map rowId := by
  apply id_deterministic_function "acct" "file"
    [[("other", PyValue.str "x")]] [[("other", PyValue.str "y")]] rfl
  intro i r1 r2 h1 h2 k hk
  cases i with
  | zero =>
    injection h1 with h1
    injection h2 with h2
    rw [← h1, ← h2]
    revert hk
    revert k
    decide
  | succ n =>
    cases h1

/-! ### C4 — exactness of the period-scoped deletion -/

theorem mem_insertStr (x y : String) (l : List String) :
    y ∈ insertStr x l ↔ y = x ∨ y ∈ l := by
  induction l with
  | nil => simp [insertStr]
  | cons z zs ih =>
    simp only [insertStr]
    by_cases h : strLeB x z = true
    · rw [if_pos h]
      simp
    · rw [if_neg h]
      simp only [List.mem_cons, ih]
      tauto

theorem mem_sortStrings (y : String) (l : List String) :
    y ∈ sortStrings l ↔ y ∈ l := by
  induction l with
  | nil => simp [sortStrings]
  | cons z zs ih =>
    simp only [sortStrings, mem_insertStr, ih, List.mem_cons]

theorem mem_firstDedupAux (y : String) (l : List String) : ∀ (seen : List String),
    y ∈ firstDedupAux seen l ↔ (y ∈ l ∧ seen.contains y = false) := by
  induction l with
  | nil => intro seen; simp [firstDedupAux]
  | cons x xs ih =>
    intro seen
    simp only [firstDedupAux]
    by_cases hx : seen.contains x = true
    · rw [if_pos hx, ih seen]
      simp only [List.mem_cons]
      constructor
      · rintro ⟨hy, hs⟩
        exact ⟨Or.inr hy, hs⟩
      · rintro ⟨hy | hy, hs⟩
        · rw [hy] at hs
          rw [hx] at hs
          cases hs
        · exact ⟨hy, hs⟩
    · have hx' : seen.contains x = false := by
        cases hb : seen.contains x
        · rfl
        · exact absurd hb hx
      rw [if_neg (by rw [hx']; simp)]
      simp only [List.mem_cons, ih (x :: seen)]
      constructor
      · rintro (hy | ⟨hy, hs⟩)
        · exact ⟨Or.inl hy, by rw [hy]; exact hx'⟩
        · rw [List.contains_cons] at hs
          constructor
          · exact Or.inr hy
          · cases hb : seen.contains y
            · rfl
            · rw [hb] at hs; simp at hs
      · rintro ⟨hy | hy, hs⟩
        · exact Or.inl hy
        · by_cases hyx : y = x
          · exact Or.inl hyx
          · refine Or.inr ⟨hy, ?_⟩
            rw [List.contains_cons, hs]
            rw [beq_eq_false_iff_ne.mpr hyx]
            rfl

theorem mem_firstDedup (y : String) (l : List String) :
    y ∈ firstDedup l ↔ y ∈ l := by
  rw [show firstDedup l = firstDedupAux [] l from rfl, mem_firstDedupAux]
  simp [List.contains]

theorem mem_sortedComps (recs : List Row) (c : String) :
    c ∈ sortedComps recs ↔ ∃ r ∈ recs, compOf r = some c := by
  unfold sortedComps
  rw [mem_sortStrings, mem_firstDedup, List.mem_filterMap]

theorem compOf_eq_some (r : Row) (c : String) :
    compOf r = some c ↔ ∃ s, rowGet? r "competence_date" = some (PyValue.str s) ∧
      7 ≤ s.length ∧ c = String.mk (s.data.take 7) := by
  unfold compOf
  cases hg : rowGet? r "competence_date" with
  | none => simp [PyValue.truthy]
  | some v =>
    simp only [Option.getD_some]
    cases v with
    | str s =>
      constructor
      · intro h
        by_cases hs : s = ""
        · subst hs
          simp [PyValue.truthy] at h
        · rw [if_pos (by simp [PyValue.truthy, hs])] at h
          have h' : (if 7 ≤ s.length then some (String.mk (s.data.take 7))
              else (Option.none : Option String)) = some c := h
          by_cases hlen : 7 ≤ s.length
          · rw [if_pos hlen] at h'
            injection h' with h'
            exact ⟨s, rfl, hlen, h'.symm⟩
          · rw [if_neg hlen] at h'
            cases h' 
      · rintro ⟨s', hs', hlen, hc⟩
        injection hs' with hs'
        injection hs' with hs'
        subst hs'
        have hs : s ≠ "" := by
          intro h0
          rw [h0] at hlen
          simp [String.length] at hlen
        rw [if_pos (by simp [PyValue.truthy, hs])]
        show (if 7 ≤ s.length then some (String.mk (s.data.take 7))
          else (Option.none : Option String)) = some c
        rw [if_pos hlen, hc]
    | null => simp [PyValue.truthy]
    | num q =>
      constructor
      · intro h
        by_cases htr : (PyValue.num q).truthy = true
        · rw [if_pos htr] at h
          cases h
        · rw [if_neg htr] at h
          cases h
      · rintro ⟨s', hs', _, _⟩
        injection hs' with hs'
        cases hs'
    | int n =>
      constructor
      · intro h
        by_cases htr : (PyValue.int n).truthy = true
        · rw [if_pos htr] at h
          cases h
        · rw [if_neg htr] at h
          cases h
      · rintro ⟨s', hs', _, _⟩
        injection hs' with hs'
        cases hs'
    | nan =>
      constructor
      · intro h
        have h' : (Option.none : Option String) = some c := h
        cases h' 
      · rintro ⟨s', hs', _, _⟩
        injection hs' with hs'
        cases hs'
    | inf =>
      constructor
      · intro h
        have h' : (Option.none : Option String) = some c := h
        cases h' 
      · rintro ⟨s', hs', _, _⟩
        injection hs' with hs'
        cases hs'
    | ninf =>
      constructor
      · intro h
        have h' : (Option.none : Option String) = some c := h
        cases h' 
      · rintro ⟨s', hs', _, _⟩
        injection hs' with hs'
        cases hs'

theorem entryMatches_true_iff (aid : String) (ms ns : Date) (e : StoredEntry) :
    entryMatches aid ms ns e = true ↔
      e.account_id = aid ∧ ∃ d, e.competence_date = some d ∧
        dateLeB ms d = true ∧ dateLtB d ns = true := by
  unfold entryMatches
  cases hc : e.competence_date with
  | none => simp
  | some d => simp [Bool.and_eq_true, beq_iff_eq]

theorem periodScopedDelete_mem (comps : List String) :
    ∀ (store : List StoredEntry) (aid : String) (e : StoredEntry),
    e ∈ periodScopedDelete store aid comps ↔
      e ∈ store ∧ ∀ comp ∈ comps, ∀ ms ns, parseCompBounds comp = some (ms, ns) →
        entryMatches aid ms ns e = false := by
  induction comps with
  | nil =>
    intro store aid e
    simp [periodScopedDelete]
  | cons c cs ih =>
    intro store aid e
    have hstep : periodScopedDelete store aid (c :: cs) =
        periodScopedDelete
          (match parseCompBounds c with
           | some bounds => store.filter (fun e => ¬ entryMatches aid bounds.1 bounds.2 e)
           | Option.none => store) aid cs := by
      rfl
    rw [hstep, ih]
    cases hp : parseCompBounds c with
    | none =>
      constructor
      · rintro ⟨he, hall⟩
        refine ⟨he, fun comp hcomp ms ns hparse => ?_⟩
        rcases List.mem_cons.mp hcomp with hceq | hmem
        · rw [hceq, hp] at hparse
          cases hparse
        · exact hall comp hmem ms ns hparse
      · rintro ⟨he, hall⟩
        exact ⟨he, fun comp hcomp ms ns hparse =>
          hall comp (List.mem_cons_of_mem _ hcomp) ms ns hparse⟩
    | some bounds =>
      constructor
      · rintro ⟨he, hall⟩
        rw [List.mem_filter] at he
        obtain ⟨he1, he2⟩ := he
        refine ⟨he1, fun comp hcomp ms ns hparse => ?_⟩
        rcases List.mem_cons.mp hcomp with hceq | hmem
        · rw [hceq, hp] at hparse
          injection hparse with hparse
          have hb1 : ms = bounds.1 := by rw [hparse]
          have hb2 : ns = bounds.2 := by rw [hparse]
          subst hb1
          subst hb2
          simp only [decide_eq_true_eq] at he2
          cases hb : entryMatches aid bounds.1 bounds.2 e
          · rfl
          · exact absurd hb he2
        · exact hall comp hmem ms ns hparse
      · rintro ⟨he, hall⟩
        refine ⟨?_, fun comp hcomp ms ns hparse =>
          hall comp (List.mem_cons_of_mem _ hcomp) ms ns hparse⟩
        rw [List.mem_filter]
        refine ⟨he, ?_⟩
        have := hall c (List.mem_cons_self _ _) bounds.1 bounds.2 (by rw [hp])
        simp [this]

/-- C4: the period-scoped deletion removes exactly the stored entries
of the processed account whose competence date lies in the half-open
month interval `[first day of M, first day of the month after M)` for
some year-month `M` that is the 7-character prefix of a truthy string
`competence_date` (of length at least 7) of a record in the file;
entries of other accounts or outside every such interval survive.
December rolls over to January of the next year, as the concrete bounds
of `"2024-12"` show. -/
theorem period_scoped_delete_exact (store : List StoredEntry) (aid : String)
    (recs : List Row) (e : StoredEntry) :
    (e ∈ periodScopedDelete store aid (sortedComps recs) ↔
      e ∈ store ∧ ¬ (e.account_id = aid ∧ ∃ r ∈ recs, ∃ s ms ns,
        rowGet? r "competence_date" = some (PyValue.str s) ∧ 7 ≤ s.length ∧
        parseCompBounds (String.mk (s.data.take 7)) = some (ms, ns) ∧
        (∃ d, e.competence_date = some d ∧
          dateLeB ms d = true ∧ dateLtB d ns = true))) ∧
    parseCompBounds "2024-12" =
      some ({ year := 2024, month := 12, day := 1 },
            { year := 2025, month := 1, day := 1 }) := by
  constructor
  · rw [periodScopedDelete_mem]
    apply and_congr_right
    intro _
    constructor
    · intro hall
      rintro ⟨hacc, r, hr, s, ms, ns, hget, hlen, hparse, d, hd, h1, h2⟩
      have hcomp : String.mk (s.data.take 7) ∈ sortedComps recs := by
        rw [mem_sortedComps]
        exact ⟨r, hr, (compOf_eq_some r _).mpr ⟨s, hget, hlen, rfl⟩⟩
      have hfalse := hall _ hcomp ms ns hparse
      have htrue : entryMatches aid ms ns e = true :=
        (entryMatches_true_iff aid ms ns e).mpr ⟨hacc, d, hd, h1, h2⟩
      rw [htrue] at hfalse
      cases hfalse
    · intro hnot comp hcomp ms ns hparse
      cases hb : entryMatches aid ms ns e
      · rfl
      · exfalso
        apply hnot
        obtain ⟨hacc, d, hd, h1, h2⟩ := (entryMatches_true_iff aid ms ns e).mp hb
        obtain ⟨r, hr, hcompOf⟩ := (mem_sortedComps recs comp).mp hcomp
        obtain ⟨s, hget, hlen, hc⟩ := (compOf_eq_some r comp).mp hcompOf
        subst hc
        exact ⟨hacc, r, hr, s, ms, ns, hget, hlen, hparse, d, hd, h1, h2⟩
  · decide

/-! ### C9 — error handling of the persister -/

theorem runUpserts_congr (exec1 exec2 : StoreOp → Bool)
    (h : ∀ b, exec1 (StoreOp.upsertBatch b) = exec2 (StoreOp.upsertBatch b)) :
    ∀ batches, runUpserts exec1 batches = runUpserts exec2 batches := by
  intro batches
  induction batches with
  | nil => rfl
  | cons b bs ih =>
    simp only [runUpserts, h b, ih]

theorem saveData_eq (exec : StoreOp → Bool) (aid fid : String) (rows : List Row) :
    saveData exec aid fid rows =
      (StoreOp.deleteByFile fid ::
        periodOpsOf aid (uniqueRecords (prepareRecords aid fid rows)) ++
        (runUpserts exec (chunk100 (uniqueRecords (prepareRecords aid fid rows)))).1,
       (runUpserts exec (chunk100 (uniqueRecords (prepareRecords aid fid rows)))).2) :=
  rfl

theorem runUpserts_all_ok (exec : StoreOp → Bool) :
    ∀ (batches : List (List Row)),
    (∀ b ∈ batches, exec (StoreOp.upsertBatch b) = true) →
    runUpserts exec batches = (batches.map StoreOp.upsertBatch, true) := by
  intro batches
  induction batches with
  | nil => intro _; rfl
  | cons b bs ih =>
    intro hall
    simp only [runUpserts, hall b (List.mem_cons_self _ _), if_true,
      ih (fun b' hb' => hall b' (List.mem_cons_of_mem _ hb')), List.map_cons]

theorem runUpserts_first_fail (exec : StoreOp → Bool) :
    ∀ (batches : List (List Row)) (k : Nat),
    (∀ j, j < k → ∀ b, batches.get? j = some b → exec (StoreOp.upsertBatch b) = true) →
    (∀ b, batches.get? k = some b → exec (StoreOp.upsertBatch b) = false) →
    k < batches.length →
    runUpserts exec batches = ((batches.take (k + 1)).map StoreOp.upsertBatch, false) := by
  intro batches
  induction batches with
  | nil =>
    intro k _ _ hk
    simp at hk
  | cons b bs ih =>
    intro k hok hfail hk
    cases k with
    | zero =>
      have hf := hfail b rfl
      simp only [runUpserts, hf, Bool.false_eq_true, if_false, List.take_succ_cons,
        List.take_zero, List.map_cons, List.map_nil]
    | succ k' =>
      have h0 : exec (StoreOp.upsertBatch b) = true := hok 0 (by omega) b rfl
      have hrec := ih k'
        (fun j hj b' hb' => hok (j + 1) (by omega) b' hb')
        (fun b' hb' => hfail b' hb')
        (by simp at hk; omega)
      simp only [runUpserts, h0, if_true, hrec, List.take_succ_cons, List.map_cons]

/-- C9: the operation trace and the outcome of the persister do not
depend on the outcomes of the file-scoped and period-scoped deletes
(their failures are caught and logged, and the run continues to the
upsert phase); if every batch upsert succeeds the run returns, and the
first failing batch upsert aborts the run with exactly the batches up
to and including the failing one attempted and nothing after it. -/
theorem delete_failures_tolerated_upsert_fatal (exec1 exec2 : StoreOp → Bool)
    (aid fid : String) (rows : List Row) (k : Nat)
    (hup : ∀ b, exec1 (StoreOp.upsertBatch b) = exec2 (StoreOp.upsertBatch b)) :
    saveData exec1 aid fid rows = saveData exec2 aid fid rows ∧
    ((∀ b ∈ chunk100 (uniqueRecords (prepareRecords aid fid rows)),
        exec1 (StoreOp.upsertBatch b) = true) →
      saveData exec1 aid fid rows =
        (StoreOp.deleteByFile fid ::
          periodOpsOf aid (uniqueRecords (prepareRecords aid fid rows)) ++
          (chunk100 (uniqueRecords (prepareRecords aid fid rows))).map
            StoreOp.upsertBatch,
         true)) ∧
    ((∀ j, j < k → ∀ b,
        (chunk100 (uniqueRecords (prepareRecords aid fid rows))).get? j = some b →
        exec1 (StoreOp.upsertBatch b) = true) →
     (∀ b, (chunk100 (uniqueRecords (prepareRecords aid fid rows))).get? k = some b →
        exec1 (StoreOp.upsertBatch b) = false) →
     k < (chunk100 (uniqueRecords (prepareRecords aid fid rows))).length →
      saveData exec1 aid fid rows =
        (StoreOp.deleteByFile fid ::
          periodOpsOf aid (uniqueRecords (prepareRecords aid fid rows)) ++
          ((chunk100 (uniqueRecords (prepareRecords aid fid rows))).take (k + 1)).map
            StoreOp.upsertBatch,
         false)) := by
  refine ⟨?_, ?_, ?_⟩
  · rw [saveData_eq, saveData_eq, runUpserts_congr exec1 exec2 hup]
  · intro hall
    rw [saveData_eq, runUpserts_all_ok exec1 _ hall]
  · intro hok hfail hk
    rw [saveData_eq, runUpserts_first_fail exec1 _ k hok hfail hk]

/-- C9 witness: one record, one batch; a store that fails every delete
but accepts upserts still saves (run returns), and a store that fails
the only upsert aborts after attempting exactly that batch. -/
theorem delete_failures_tolerated_upsert_fatal_witness :
    (saveData (fun op => match op with
        | StoreOp.upsertBatch _ => true
        | _ => false) "acct" "file" [[("title", PyValue.str "x")]]).2 = true ∧
    (saveData (fun _ => false) "acct" "file" [[("title", PyValue.str "x")]]).2 = false := by
  constructor
  · have h := delete_failures_tolerated_upsert_fatal
      (fun op => match op with
        | StoreOp.upsertBatch _ => true
        | _ => false)
      (fun _ => true) "acct" "file" [[("title", PyValue.str "x")]] 0
      (fun b => rfl)
    rw [h.2.1 (fun b _ => rfl)]
  · have h := delete_failures_tolerated_upsert_fatal
      (fun _ => false) (fun _ => false) "acct" "file" [[("title", PyValue.str "x")]] 0
      (fun b => rfl)
    rw [h.2.2 (fun j hj b hb => absurd hj (by omega)) (fun b hb => rfl) (by decide)]

/-! ### C10 — records without a period key -/

theorem prepared_competence_value (aid fid : String) (i : Nat) (r : Row) :
    rowGet? (prepareRecord aid i
        (rowSet (rowSet r "account_id" (PyValue.str aid))
          "received_file_id" (PyValue.str fid))) "competence_date" =
      (rowGet? r "competence_date").map sanitizeValue := by
  simp only [prepareRecord]
  rw [rowGet?_rowSet_ne _ _ _ _ (by decide), rowGet?_rowSet_ne _ _ _ _ (by decide),
    rowGet?_sanitizeRecord,
    rowGet?_rowSet_ne _ _ _ _ (by decide), rowGet?_rowSet_ne _ _ _ _ (by decide)]

theorem sanitizeValue_eq_str (v : PyValue) (s : String)
    (h : sanitizeValue v = PyValue.str s) : v = PyValue.str s := by
  cases v <;> first | exact h | cases h

theorem compOf_prepared_none (aid fid : String) (rows : List Row)
    (hnokey : ∀ r ∈ rows, ∀ s, rowGet? r "competence_date" = some (PyValue.str s) →
      s.length < 7)
    (p : Row) (hp : p ∈ prepareRecords aid fid rows) : compOf p = Option.none := by
  obtain ⟨n, hn⟩ := List.mem_iff_get?.mp hp
  cases hc : compOf p with
  | none => rfl
  | some c =>
    exfalso
    obtain ⟨s, hget, hlen, _⟩ := (compOf_eq_some p c).mp hc
    rw [prepareRecords_get?] at hn
    cases hr : rows.get? n with
    | none => rw [hr] at hn; cases hn
    | some r0 =>
      rw [hr] at hn
      injection hn with hn
      rw [← hn, prepared_competence_value] at hget
      cases hv : rowGet? r0 "competence_date" with
      | none => rw [hv] at hget; cases hget
      | some v =>
        rw [hv] at hget
        injection hget with hget
        have hvs := sanitizeValue_eq_str v s hget
        have := hnokey r0 (List.get?_mem hr) s (by rw [hv, hvs])
        omega

theorem chunk100F_join (fuel : Nat) : ∀ (l : List Row), l.length ≤ fuel →
    (chunk100F fuel l).join = l := by
  induction fuel with
  | zero =>
    intro l hl
    have : l = [] := List.eq_nil_of_length_eq_zero (by omega)
    subst this
    rfl
  | succ f ih =>
    intro l hl
    cases l with
    | nil => rfl
    | cons x xs =>
      show ((x :: xs).take 100 :: chunk100F f ((x :: xs).drop 100)).join = x :: xs
      rw [show ((x :: xs).take 100 :: chunk100F f ((x :: xs).drop 100)).join =
          (x :: xs).take 100 ++ (chunk100F f ((x :: xs).drop 100)).join from rfl,
        ih ((x :: xs).drop 100)
          (by simp only [List.length_drop, List.length_cons] at hl ⊢; omega)]
      exact List.take_append_drop 100 (x :: xs)

theorem chunk100_join (l : List Row) : (chunk100 l).join = l :=
  chunk100F_join l.length l (le_refl _)

/-- C10: when no record carries a string `competence_date` of length at
least 7 (null, missing, non-string or short values included), the
persister collects no period key and issues no period-scoped delete at
all, yet every record still receives a deterministic id, none is
dropped, and the union of the upserted batches is exactly the prepared
record list (the run returns when the upserts succeed). -/
theorem no_period_key_no_period_delete (exec : StoreOp → Bool) (aid fid : String)
    (rows : List Row)
    (hnokey : ∀ r ∈ rows, ∀ s, rowGet? r "competence_date" = some (PyValue.str s) →
      s.length < 7)
    (hup : ∀ b, exec (StoreOp.upsertBatch b) = true) :
    periodOpsOf aid (uniqueRecords (prepareRecords aid fid rows)) = [] ∧
    (∀ op ∈ (saveData exec aid fid rows).1, ∀ a ms ns,
      op ≠ StoreOp.deleteByPeriod a ms ns) ∧
    (saveData exec aid fid rows).2 = true ∧
    (chunk100 (uniqueRecords (prepareRecords aid fid rows))).join =
      prepareRecords aid fid rows ∧
    (∀ r ∈ prepareRecords aid fid rows, ∃ s, rowGet? r "id" = some (PyValue.str s)) := by
  have huniq : uniqueRecords (prepareRecords aid fid rows) = prepareRecords aid fid rows :=
    uniqueRecords_prepareRecords aid fid rows
  have hcomps : sortedComps (uniqueRecords (prepareRecords aid fid rows)) = [] := by
    rw [huniq]
    unfold sortedComps
    rw [show (prepareRecords aid fid rows).filterMap compOf = [] from
      List.filterMap_eq_nil.mpr (fun p hp => compOf_prepared_none aid fid rows hnokey p hp)]
    rfl
  have hperiod : periodOpsOf aid (uniqueRecords (prepareRecords aid fid rows)) = [] := by
    unfold periodOpsOf
    by_cases he : (uniqueRecords (prepareRecords aid fid rows)).isEmpty
    · rw [if_pos he]
      rfl
    · rw [if_neg he, hcomps]
      rfl
  have hallok : ∀ b ∈ chunk100 (uniqueRecords (prepareRecords aid fid rows)),
      exec (StoreOp.upsertBatch b) = true := fun b _ => hup b
  have hsave := saveData_eq exec aid fid rows
  rw [runUpserts_all_ok exec _ hallok] at hsave
  refine ⟨hperiod, ?_, ?_, ?_, ?_⟩
  · intro op hop a ms ns
    rw [hsave] at hop
    simp only [hperiod, List.nil_append] at hop
    rcases List.mem_cons.mp hop with hop | hop
    · rw [hop]
      intro hc
      cases hc
    · obtain ⟨b, _, hb⟩ := List.mem_map.mp hop
      rw [← hb]
      intro hc
      cases hc
  · rw [hsave]
  · rw [huniq, chunk100_join]
  · intro r hr
    obtain ⟨n, hn⟩ := List.mem_iff_get?.mp hr
    rw [prepareRecords_get?] at hn
    cases hrn : rows.get? n with
    | none => rw [hrn] at hn; cases hn
    | some r0 =>
      rw [hrn] at hn
      injection hn with hn
      rw [← hn, prepareRecord_id]
      exact ⟨_, rfl⟩

/-- C10 witness: a one-record file whose competence date is null still
produces no period delete, and its record is upserted with an id. -/
theorem no_period_key_no_period_delete_witness :
    periodOpsOf "acct" (uniqueRecords (prepareRecords "acct" "file"
      [[("competence_date", PyValue.null), ("title", PyValue.str "t")]])) = [] ∧
    (saveData (fun _ => true) "acct" "file"
      [[("competence_date", PyValue.null), ("title", PyValue.str "t")]]).2 = true := by
  have h := no_period_key_no_period_delete (fun _ => true) "acct" "file"
    [[("competence_date", PyValue.null), ("title", PyValue.str "t")]]
    (by
      intro r hr s hget
      rcases List.mem_singleton.mp hr with rfl
      have h0 : rowGet? [("competence_date", PyValue.null), ("title", PyValue.str "t")]
          "competence_date" = some PyValue.null := rfl
      rw [h0] at hget
      injection hget with hget
      cases hget)
    (fun _ => rfl)
  exact ⟨h.1, h.2.2.1⟩

/-! ### C6 — null-safety of cleaned and persisted records -/

theorem sanitizeValue_isFinite (v : PyValue) : (sanitizeValue v).isFinite = true := by
  cases v <;> rfl

theorem rowGet?_mem (r : Row) (k : String) (v : PyValue) (h : rowGet? r k = some v) :
    (k, v) ∈ r := by
  unfold rowGet? at h
  cases hf : r.find? (fun kv => kv.1 == k) with
  | none => rw [hf] at h; cases h
  | some kv =>
    rw [hf] at h
    injection h with h
    have hmem := List.mem_of_find?_eq_some hf
    have hp := List.find?_some hf
    rw [beq_iff_eq] at hp
    have : (k, v) = kv := by
      cases kv
      simp only at hp h
      rw [hp, h]
    rw [this]
    exact hmem

theorem mem_fillMissing (cols : List String) : ∀ (acc : Row) (kv : String × PyValue),
    kv ∈ fillMissing acc cols → kv ∈ acc ∨ kv.2 = PyValue.null := by
  induction cols with
  | nil => intro acc kv h; exact Or.inl h
  | cons c cs ih =>
    intro acc kv h
    have hstep : fillMissing acc (c :: cs) =
        fillMissing (if acc.any (fun kv => kv.1 == c) then acc
          else acc ++ [(c, PyValue.null)]) cs := rfl
    rw [hstep] at h
    rcases ih _ kv h with h' | h'
    · by_cases ha : acc.any (fun kv => kv.1 == c) = true
      · rw [if_pos ha] at h'
        exact Or.inl h'
      · rw [if_neg ha] at h'
        rcases List.mem_append.mp h' with h'' | h''
        · exact Or.inl h''
        · right
          have : kv = (c, PyValue.null) := List.mem_singleton.mp h''
          rw [this]
    · exact Or.inr h'

theorem cleanIdCell_not_nonfinite (v : PyValue) :
    cleanIdCell v ≠ PyValue.inf ∧ cleanIdCell v ≠ PyValue.ninf ∧
      cleanIdCell v ≠ PyValue.nan := by
  unfold cleanIdCell
  by_cases h : stripDotZero (pyStr v) = "None"
  · rw [if_pos h]
    refine ⟨fun hc => PyValue.noConfusion hc, fun hc => PyValue.noConfusion hc, fun hc => PyValue.noConfusion hc⟩
  · rw [if_neg h]
    refine ⟨fun hc => PyValue.noConfusion hc, fun hc => PyValue.noConfusion hc, fun hc => PyValue.noConfusion hc⟩

theorem cleanValueCell_not_inf (v : PyValue) :
    cleanValueCell v ≠ PyValue.inf ∧ cleanValueCell v ≠ PyValue.ninf := by
  unfold cleanValueCell
  cases parseFloat (commaToDot (moneyFilter (pyStr v))) with
  | none => exact ⟨fun hc => PyValue.noConfusion hc, fun hc => PyValue.noConfusion hc⟩
  | some q => exact ⟨fun hc => PyValue.noConfusion hc, fun hc => PyValue.noConfusion hc⟩

theorem cleanCellForCol_not_inf (dateParse : PyValue → Option String) (col : String)
    (v : PyValue) (hv1 : v ≠ PyValue.inf) (hv2 : v ≠ PyValue.ninf) :
    cleanCellForCol dateParse col v ≠ PyValue.inf ∧
      cleanCellForCol dateParse col v ≠ PyValue.ninf := by
  unfold cleanCellForCol
  by_cases hd : col ∈ DATE_COLUMNS
  · rw [if_pos hd]
    cases dateParse v with
    | none => exact ⟨fun hc => PyValue.noConfusion hc, fun hc => PyValue.noConfusion hc⟩
    | some s => exact ⟨fun hc => PyValue.noConfusion hc, fun hc => PyValue.noConfusion hc⟩
  · rw [if_neg hd]
    by_cases hi : col ∈ ID_COLUMNS
    · rw [if_pos hi]
      exact ⟨(cleanIdCell_not_nonfinite v).1, (cleanIdCell_not_nonfinite v).2.1⟩
    · rw [if_neg hi]
      by_cases hva : col ∈ VALUE_COLUMNS
      · rw [if_pos hva]
        exact cleanValueCell_not_inf v
      · rw [if_neg hva]
        exact ⟨hv1, hv2⟩

theorem isFinite_of_ne (v : PyValue) (h1 : v ≠ PyValue.nan) (h2 : v ≠ PyValue.inf)
    (h3 : v ≠ PyValue.ninf) : v.isFinite = true := by
  cases v
  · rfl
  · rfl
  · rfl
  · rfl
  · exact absurd rfl h1
  · exact absurd rfl h2
  · exact absurd rfl h3

theorem map_fst_pairs (fc : List String) (g : String → PyValue) (h : PyValue → PyValue) :
    ((fc.map (fun c => (c, g c))).map
      (fun kv : String × PyValue => (kv.1, h kv.2))).map Prod.fst = fc := by
  induction fc with
  | nil => rfl
  | cons c cs ih => simp only [List.map_cons, ih]

theorem cleanRow_keys (dateParse : PyValue → Option String)
    (mapping : List (String × String)) (layout : String) (raw : Row) :
    (cleanRow dateParse mapping layout raw).map Prod.fst = finalColumnsFor mapping :=
  map_fst_pairs (finalColumnsFor mapping)
    (fun c => (rowGet? (rowSet (fillMissing
        (((raw.map (fun kv : String × PyValue =>
              (kv.1, if kv.2 = PyValue.nan then PyValue.null else kv.2))).map
            (fun kv : String × PyValue => ((mapping.lookup kv.1).getD kv.1, kv.2))).map
          (fun kv : String × PyValue => (kv.1, cleanCellForCol dateParse kv.1 kv.2)))
        (finalColumnsFor mapping)) "layout_version" (PyValue.str layout)) c).getD
        PyValue.null)
    (fun v => if v = PyValue.nan then PyValue.null else v)

theorem cleanRow_mid_values (dateParse : PyValue → Option String)
    (mapping : List (String × String)) (layout : String) (raw : Row)
    (hfin : ∀ kv ∈ raw, kv.2 ≠ PyValue.inf ∧ kv.2 ≠ PyValue.ninf) :
    ∀ (c : String) (v : PyValue),
      rowGet? (rowSet (fillMissing
        (((raw.map (fun kv => (kv.1, if kv.2 = PyValue.nan then PyValue.null else kv.2))).map
            (fun kv => ((mapping.lookup kv.1).getD kv.1, kv.2))).map
          (fun kv => (kv.1, cleanCellForCol dateParse kv.1 kv.2)))
        (finalColumnsFor mapping)) "layout_version" (PyValue.str layout)) c = some v →
      v ≠ PyValue.inf ∧ v ≠ PyValue.ninf := by
  intro c v h
  have hmem := rowGet?_mem _ _ _ h
  rcases mem_rowSet _ _ _ _ hmem with hmem' | hkv
  · rcases mem_fillMissing _ _ _ hmem' with hmem'' | hnull
    · obtain ⟨kv1, hkv1, heq⟩ := List.mem_map.mp hmem''
      obtain ⟨kv0, hkv0, heq1⟩ := List.mem_map.mp hkv1
      obtain ⟨kvr, hkvr, heq0⟩ := List.mem_map.mp hkv0
      have hr := hfin kvr hkvr
      have hv1 : kv1.2 = (if kvr.2 = PyValue.nan then PyValue.null else kvr.2) := by
        rw [← heq1, ← heq0]
      have hne : kv1.2 ≠ PyValue.inf ∧ kv1.2 ≠ PyValue.ninf := by
        rw [hv1]
        by_cases hn : kvr.2 = PyValue.nan
        · rw [if_pos hn]
          exact ⟨fun hc => PyValue.noConfusion hc, fun hc => PyValue.noConfusion hc⟩
        · rw [if_neg hn]
          exact hr
      have hveq : v = cleanCellForCol dateParse kv1.1 kv1.2 :=
        (congrArg Prod.snd heq).symm
      rw [hveq]
      exact cleanCellForCol_not_inf dateParse kv1.1 kv1.2 hne.1 hne.2
    · have hvnull : v = PyValue.null := hnull
      rw [hvnull]
      exact ⟨fun hc => PyValue.noConfusion hc, fun hc => PyValue.noConfusion hc⟩
  · have hvstr : v = PyValue.str layout := congrArg Prod.snd hkv
    rw [hvstr]
    exact ⟨fun hc => PyValue.noConfusion hc, fun hc => PyValue.noConfusion hc⟩

theorem cleanRow_values_finite (dateParse : PyValue → Option String)
    (mapping : List (String × String)) (layout : String) (raw : Row)
    (hfin : ∀ kv ∈ raw, kv.2 ≠ PyValue.inf ∧ kv.2 ≠ PyValue.ninf) :
    ∀ kv ∈ cleanRow dateParse mapping layout raw, kv.2.isFinite = true := by
  intro kv hkv
  simp only [cleanRow] at hkv
  obtain ⟨kv5, hkv5, heq⟩ := List.mem_map.mp hkv
  obtain ⟨c, _, heq5⟩ := List.mem_map.mp hkv5
  have hkveq : kv.2 = (if kv5.2 = PyValue.nan then PyValue.null else kv5.2) :=
    (congrArg Prod.snd heq).symm
  by_cases hnan : kv5.2 = PyValue.nan
  · rw [hkveq, if_pos hnan]
    rfl
  · rw [hkveq, if_neg hnan]
    have hv5 : kv5.2 = (rowGet? (rowSet (fillMissing
        (((raw.map (fun kv => (kv.1, if kv.2 = PyValue.nan then PyValue.null else kv.2))).map
            (fun kv => ((mapping.lookup kv.1).getD kv.1, kv.2))).map
          (fun kv => (kv.1, cleanCellForCol dateParse kv.1 kv.2)))
        (finalColumnsFor mapping)) "layout_version" (PyValue.str layout)) c).getD
        PyValue.null := (congrArg Prod.snd heq5).symm
    cases hg : rowGet? (rowSet (fillMissing
        (((raw.map (fun kv => (kv.1, if kv.2 = PyValue.nan then PyValue.null else kv.2))).map
            (fun kv => ((mapping.lookup kv.1).getD kv.1, kv.2))).map
          (fun kv => (kv.1, cleanCellForCol dateParse kv.1 kv.2)))
        (finalColumnsFor mapping)) "layout_version" (PyValue.str layout)) c with
    | none =>
      rw [hg] at hv5
      rw [hv5]
      rfl
    | some v =>
      rw [hg] at hv5
      have hvv : kv5.2 = v := hv5
      have hne := cleanRow_mid_values dateParse mapping layout raw hfin c v hg
      rw [hvv]
      exact isFinite_of_ne v (by rw [← hvv]; exact hnan) hne.1 hne.2

theorem sanitizeRecord_fst (r : Row) :
    (sanitizeRecord r).map Prod.fst = r.map Prod.fst := by
  induction r with
  | nil => rfl
  | cons kv rest ih =>
    show kv.1 :: (sanitizeRecord rest).map Prod.fst = kv.1 :: rest.map Prod.fst
    rw [ih]

theorem prepareRecord_values_finite (aid : String) (i : Nat) (rec : Row) :
    ∀ kv ∈ prepareRecord aid i rec, kv.2.isFinite = true := by
  intro kv hkv
  simp only [prepareRecord] at hkv
  rcases mem_rowSet _ _ _ _ hkv with hkv1 | hkv1
  · rcases mem_rowSet _ _ _ _ hkv1 with hkv2 | hkv2
    · obtain ⟨kv0, _, heq⟩ := List.mem_map.mp hkv2
      rw [show kv.2 = sanitizeValue kv0.2 from (congrArg Prod.snd heq).symm]
      exact sanitizeValue_isFinite _
    · rw [show kv.2 = PyValue.str _ from congrArg Prod.snd hkv2]
      rfl
  · rw [show kv.2 = PyValue.str _ from congrArg Prod.snd hkv1]
    rfl

theorem prepareRecord_keys_superset (aid : String) (i : Nat) (rec : Row) (c : String)
    (hc : c ∈ rec.map Prod.fst) : c ∈ (prepareRecord aid i rec).map Prod.fst := by
  simp only [prepareRecord]
  apply mem_fst_rowSet
  apply mem_fst_rowSet
  rw [sanitizeRecord_fst]
  exact hc

/-- C6: every record leaving the cleaning stage carries exactly the
canonical columns of the detected layout and only finite values
(given source cells that are not IEEE infinities, which the readers
never produce); every record handed to the batch upserter still
contains all canonical columns, has been sanitized to finite values
only, and serializes under `allow_nan=False` JSON rules. -/
theorem cleaning_and_sanitization_invariant (dateParse : PyValue → Option String)
    (rawCols : List String) (rawRows : List Row) (hint : Option String)
    (aid fid : String)
    (hfin : ∀ raw ∈ rawRows, ∀ kv ∈ raw, kv.2 ≠ PyValue.inf ∧ kv.2 ≠ PyValue.ninf) :
    (∀ r ∈ (cleanRows dateParse rawCols rawRows hint).1,
      r.map Prod.fst =
        finalColumnsFor (mappingForLayout (cleanRows dateParse rawCols rawRows hint).2) ∧
      ∀ kv ∈ r, kv.2.isFinite = true) ∧
    (∀ r ∈ uniqueRecords
        (prepareRecords aid fid (cleanRows dateParse rawCols rawRows hint).1),
      (∀ c ∈ finalColumnsFor (mappingForLayout (cleanRows dateParse rawCols rawRows hint).2),
        c ∈ r.map Prod.fst) ∧
      (∀ kv ∈ r, kv.2.isFinite = true) ∧
      (strictSerialize r).isSome = true) := by
  have hclean : (cleanRows dateParse rawCols rawRows hint).1 =
      rawRows.map (cleanRow dateParse
        (mappingForLayout (cleanRows dateParse rawCols rawRows hint).2)
        (cleanRows dateParse rawCols rawRows hint).2) := rfl
  constructor
  · intro r hr
    rw [hclean] at hr
    obtain ⟨raw, hraw, heq⟩ := List.mem_map.mp hr
    rw [← heq]
    exact ⟨cleanRow_keys _ _ _ _,
      cleanRow_values_finite _ _ _ _ (hfin raw hraw)⟩
  · intro r hr
    have hrprep := mem_uniqueRecords _ _ hr
    obtain ⟨n, hn⟩ := List.mem_iff_get?.mp hrprep
    rw [prepareRecords_get?] at hn
    cases hc0 : (cleanRows dateParse rawCols rawRows hint).1.get? n with
    | none => rw [hc0] at hn; cases hn
    | some c0 =>
      rw [hc0] at hn
      injection hn with hn
      have hc0mem : c0 ∈ (cleanRows dateParse rawCols rawRows hint).1 :=
        List.get?_mem hc0
      rw [hclean] at hc0mem
      obtain ⟨raw, hraw, heqc⟩ := List.mem_map.mp hc0mem
      have hkeys : c0.map Prod.fst =
          finalColumnsFor (mappingForLayout (cleanRows dateParse rawCols rawRows hint).2) := by
        rw [← heqc]
        exact cleanRow_keys _ _ _ _
      have hfinr : ∀ kv ∈ r, kv.2.isFinite = true := by
        rw [← hn]
        exact prepareRecord_values_finite _ _ _
      refine ⟨?_, hfinr, ?_⟩
      · intro c hcmem
        rw [← hn]
        apply prepareRecord_keys_superset
        apply mem_fst_rowSet
        apply mem_fst_rowSet
        rw [hkeys]
        exact hcmem
      · unfold strictSerialize
        rw [if_pos (List.all_eq_true.mpr (fun kv hkv => hfinr kv hkv))]
        rfl

set_option maxRecDepth 4000 in
/-- C6 witness: a raw row with a NaN cell cleans to finite values only,
and its prepared record serializes strictly. -/
theorem cleaning_and_sanitization_invariant_witness :
    ((cleanRows (fun _ => Option.none) ["competencia"]
        [[("competencia", PyValue.str "x"), ("foo", PyValue.nan)]]
        Option.none).1.getD 0 []).all (fun kv => kv.2.isFinite) = true ∧
    (strictSerialize ((uniqueRecords (prepareRecords "acct" "file"
        (cleanRows (fun _ => Option.none) ["competencia"]
          [[("competencia", PyValue.str "x"), ("foo", PyValue.nan)]]
          Option.none).1)).getD 0 [])).isSome = true := by
  have h := cleaning_and_sanitization_invariant (fun _ => Option.none) ["competencia"]
    [[("competencia", PyValue.str "x"), ("foo", PyValue.nan)]] Option.none
    "acct" "file" (by decide)
  constructor
  · apply List.all_eq_true.mpr
    intro kv hkv
    exact (h.1 _ (by decide)).2 kv hkv
  · exact (h.2 _ (by decide)).2.2
